import Mathlib

/-!
# Verification of the `rmsh` shell core (src/main.c)

This file shallowly embeds the parts of `src/main.c` that the frozen claims
C1..C10 talk about, and proves or refutes each claim.

Modelling conventions:
* C bytes are modelled as `Nat` (conceptually `< 256`); C strings and byte
  buffers are `List Nat`.  Machine-integer wraparound never matters for the
  embedded fragments (sizes are `size_t` counters that the code keeps small),
  so `Nat`/`Int` are used directly.
* A C `char *` that may be `NULL` is an `Option (List Nat)`.
* Reading a token buffer as a C string is `cstr` (stop at the first `0` byte;
  a buffer without a terminating `0` is read to its end — the C code relies on
  the byte following the heap allocation, which this model takes to be `0`).
* Fallible C functions returning `0`/nonzero become `Except`/`Option`.
* Loops whose termination is not structural are given explicit fuel; all
  universally quantified theorems quantify over the fuel, so they cover every
  actual execution of the C loop.
-/

namespace Rmsh

/-! ## UTF-8 utility (src/main.c lines 24-81) -/

/-- `utf8_size` (main.c:24): classify a lead byte.
`1..4` = lead of that length, `0` = continuation byte, `-1` = invalid. -/
def utf8_size (c : Nat) : Int :=
  if c ≤ 0x7f then 1
  else if c &&& 0xc0 = 0x80 then 0
  else if c &&& 0xe0 = 0xc0 then 2
  else if c &&& 0xf0 = 0xe0 then 3
  else if c &&& 0xf8 = 0xf0 then 4
  else -1

/-- The continuation-byte test `(c & 0xc0) == 0x80` used by `utf8_rsize`. -/
def isCont (c : Nat) : Bool := decide (c &&& 0xc0 = 0x80)

/-- `utf8_rsize` (main.c:41): scan backwards from the end of the buffer over
continuation bytes; return `0` if the whole buffer is continuation bytes
(`curr` ran off the front), else the distance from the last non-continuation
byte to the end (`len - curr`).  The C function receives `(s, len)`; the model
receives the byte list `s[0..len)`. -/
def utf8_rsize (s : List Nat) : Nat :=
  let t := (s.reverse.takeWhile isCont).length
  if t = s.length then 0 else t + 1

/-- The loop of `utf8_strnlen` consuming one byte per step.  `pending` is the
number of continuation bytes still owed to the current code point (the C loop
checks them with `(c[i] & 0xc0) != 0x80` and bounds them with `u8sz > n`;
running out of bytes or hitting a non-continuation gives `-1` either way),
`count` the code points completed so far. -/
def utf8_strnlen_go (pending count : Nat) : List Nat → Option Nat
  | [] => if pending = 0 then some count else none
  | c :: r =>
    match pending with
    | p + 1 => if isCont c then utf8_strnlen_go p count r else none
    | 0 =>
      if c = 0 then some count
      else if utf8_size c < 1 then none
      else utf8_strnlen_go ((utf8_size c).toNat - 1) (count + 1) r

/-- `utf8_strnlen` (main.c:57): number of code points of the C string prefix,
`none` for `-1` (malformed).  The C loop also stops at a `0` byte (`*c`). -/
def utf8_strnlen (l : List Nat) : Option Nat := utf8_strnlen_go 0 0 l

/-! ### Well-formedness vocabulary for the UTF-8 claims (C3, C7).
These are specification-side definitions (the claims speak about "well-formed
code points" and "code point boundaries"); they are phrased in terms of the
source's own classifier `utf8_size`. -/

/-- `l` is a single well-formed code point: a lead byte whose declared length
equals the length of `l`, followed only by continuation bytes. -/
def isCp (l : List Nat) : Bool :=
  match l with
  | [] => false
  | c :: r =>
    decide (1 ≤ utf8_size c) && decide ((utf8_size c).toNat = r.length + 1) && r.all isCont

/-- Checker loop for `u8valid`: `pending` continuation bytes still owed. -/
def u8valid_go (pending : Nat) : List Nat → Bool
  | [] => pending = 0
  | c :: r =>
    match pending with
    | p + 1 => if isCont c then u8valid_go p r else false
    | 0 =>
      if 1 ≤ utf8_size c then u8valid_go ((utf8_size c).toNat - 1) r
      else false

/-- `l` is a well-formed sequence of code points. -/
def u8valid (l : List Nat) : Bool := u8valid_go 0 l

/-- The buffer ends on a well-formed code point (some suffix is one code point). -/
def endsOnCp (s : List Nat) : Bool :=
  (List.range (s.length + 1)).any (fun i => isCp (s.drop i))

/-! ## History ring (main.c lines 204-223) -/

def HIST_MAX : Nat := 512

/-- The globals `history_buf` / `history_cur` (main.c:205-206).  The C array
of `HIST_MAX` possibly-`NULL` strings is a function from index to
`Option`-string; only indices `< HIST_MAX` are ever used. -/
structure Hist where
  buf : Nat → Option (List Nat)
  cur : Nat

/-- The initial all-`NULL` history. -/
def hist_empty : Hist := { buf := fun _ => none, cur := 0 }

/-- `history_add` (main.c:208): store at the cursor (freeing the old entry),
advance the cursor, wrap to `0` at `HIST_MAX`.  Allocation is assumed to
succeed (the model has no OOM). -/
def history_add (line : List Nat) (h : Hist) : Hist :=
  { buf := Function.update h.buf h.cur (some line)
    cur := if HIST_MAX ≤ h.cur + 1 then 0 else h.cur + 1 }

/-- `history_get` (main.c:217). -/
def history_get (h : Hist) (idx : Nat) : Option (List Nat) :=
  if HIST_MAX ≤ idx then none
  else if idx + 1 ≤ h.cur then h.buf (h.cur - (idx + 1))
  else h.buf (HIST_MAX - ((idx + 1) - h.cur))

/-- k consecutive `history_add`s, first element added first. -/
def history_addAll (xs : List (List Nat)) (h : Hist) : Hist :=
  xs.foldl (fun a x => history_add x a) h

/-! ## Key decoder (main.c lines 388-632) -/

/-- The `TCHCTRL_*` enum (main.c:394). -/
inductive Tchctrl where
  | LINEKILL | EXIT | CLEAR | ENTER | TAB | SEARCH
  | DEL | BACKSPACE
  | HOME | END | BCKWARD | FORWARD
  | UP | DN | PGUP | PGDN
deriving DecidableEq

/-- The accumulator `struct __termchar` (main.c:420): `unk` before any byte,
`text data sz` while reading a code point (`in` = `data.length`), `ctrl data`
while reading an escape sequence (`count` = `data.length`). -/
inductive Termchar where
  | unk
  | text (data : List Nat) (sz : Nat)
  | ctrl (data : List Nat)
deriving DecidableEq

/-- A decoded key event: a complete UTF-8 code point or a control action. -/
inductive Tchev where
  | text (data : List Nat)
  | ctrl (v : Tchctrl)
deriving DecidableEq

/-- Return value of `__termchar_input`: `1` = `emit`, `0` = `more`,
`-1` = `invalid`. -/
inductive TchRes where
  | emit (e : Tchev)
  | more (s : Termchar)
  | invalid
deriving DecidableEq

/-- `__termchar_input` (main.c:441): fold one byte into the accumulator. -/
def __termchar_input (s : Termchar) (c : Nat) : TchRes :=
  match s with
  | .unk =>
    if c = 0x1b then .more (.ctrl [])
    else if c = 0x01 then .emit (.ctrl .HOME)      -- CTRL_A
    else if c = 0x02 then .emit (.ctrl .BCKWARD)   -- CTRL_B
    else if c = 0x03 then .emit (.ctrl .LINEKILL)  -- CTRL_C
    else if c = 0x04 then .emit (.ctrl .EXIT)      -- CTRL_D
    else if c = 0x05 then .emit (.ctrl .END)       -- CTRL_E
    else if c = 0x06 then .emit (.ctrl .FORWARD)   -- CTRL_F
    else if c = 0x12 then .emit (.ctrl .SEARCH)    -- CTRL_R
    else if c = 0x0c then .emit (.ctrl .CLEAR)     -- CTRL_L
    else if c = 10 then .emit (.ctrl .ENTER)
    else if c = 9 then .emit (.ctrl .TAB)
    else if c = 0x7f then .emit (.ctrl .BACKSPACE)
    else if c < 0x20 then .invalid                 -- iscntrl (0x7f handled above)
    else if utf8_size c < 1 then .invalid
    else if utf8_size c = 1 then .emit (.text [c])
    else .more (.text [c] (utf8_size c).toNat)
  | .text data sz =>
    if sz ≤ data.length then .invalid
    else if data.length + 1 = sz then .emit (.text (data ++ [c]))
    else .more (.text (data ++ [c]) sz)
  | .ctrl data =>
    match data with
    | [] =>
      if c = 91 ∨ c = 79 then .more (.ctrl [c])    -- '[' or 'O'
      else .invalid
    | [79] =>                                       -- after ESC O
      if c = 72 then .emit (.ctrl .HOME)           -- 'H'
      else if c = 70 then .emit (.ctrl .END)       -- 'F'
      else .invalid
    | [91] =>                                       -- after ESC [
      if 48 ≤ c ∧ c ≤ 57 then .more (.ctrl [91, c])
      else if c = 65 then .emit (.ctrl .UP)
      else if c = 66 then .emit (.ctrl .DN)
      else if c = 67 then .emit (.ctrl .FORWARD)
      else if c = 68 then .emit (.ctrl .BCKWARD)
      else if c = 72 then .emit (.ctrl .HOME)
      else if c = 70 then .emit (.ctrl .END)
      else .invalid
    | [91, d] =>                                    -- after ESC [ digit
      if c ≠ 126 then .invalid                     -- must be '~'
      else if d = 49 then .emit (.ctrl .HOME)
      else if d = 51 then .emit (.ctrl .DEL)
      else if d = 52 then .emit (.ctrl .END)
      else if d = 53 then .emit (.ctrl .PGUP)
      else if d = 54 then .emit (.ctrl .PGDN)
      else if d = 55 then .emit (.ctrl .HOME)
      else if d = 56 then .emit (.ctrl .END)
      else .invalid
    | _ => .invalid

/-- Feed bytes one at a time (as the editor loop in `prompt` does), stopping
at the first decisive result; with no bytes left the decoder still needs
more input. -/
def termchar_feed (s : Termchar) : List Nat → TchRes
  | [] => .more s
  | c :: r =>
    match __termchar_input s c with
    | .more s' => termchar_feed s' r
    | .emit e => .emit e
    | .invalid => .invalid

/-- Run the decoder from the zeroed accumulator. -/
def termchar_run (l : List Nat) : TchRes := termchar_feed .unk l

/-- Whether the decoder still needs more bytes. -/
def tchIsMore : TchRes → Bool
  | .more _ => true
  | _ => false

/-! ## Lexer (main.c lines 1276-1529) -/

/-- `struct lex_tok` (main.c:1282).  `s`/`n` are the byte buffer and its size:
`s = none` is the `NULL` buffer (then `n = 0`), otherwise `n` is the length of
the list.  The two used bits of `flags` are separate booleans.  The intrusive
`next` pointer is represented by the position in the `tok_head` list. -/
structure LexTok where
  s : Option (List Nat)
  meta : Bool
  premeta : Bool
deriving DecidableEq

/-- Read a byte buffer as a C string: stop at the first `0` byte.  Word-token
buffers end in an explicit `0`; pure-metacharacter buffers carry no `0` and
are read to their end (the C code reads the heap byte just past the buffer,
taken to be `0` in this model). -/
def cstr (l : List Nat) : List Nat := l.takeWhile (fun c => c ≠ 0)

/-- `struct lex` (main.c:1315): cursor (the remaining input suffix; a `0`
byte acts as end of input wherever it occurs), line counter, and the LIFO of
pushed-back tokens.  `error`/`erralloc` only carry diagnostics and are
subsumed by the `LexErr` results. -/
structure Lex where
  rest : List Nat
  line : Nat
  tok_head : List LexTok
deriving DecidableEq

/-- `lex_create(input, 1, ..)` as called from `rmsh_input` (main.c:2360). -/
def lex_init (input : List Nat) : Lex :=
  { rest := input, line := 1, tok_head := [] }

/-- The `lex_set_error` diagnostics that the embedded code can produce. -/
inductive LexErr where
  | unterminatedQuote   -- "unexpected EOF while looking for matching quote"
  | unknownRedirOp      -- "unknown redirection op `X'"
  | redirUnexpectedEof  -- "syntax error near unexpected EOF"
  | redirUnexpectedTok  -- "syntax error near unexpected token `X'"
  | invalidRedirFd      -- "invalid redirection fd `X'"
  | unexpectedMetachar  -- "unexpected metacharacter `X'"
  | pipeUnexpectedEof   -- "syntax error: unexpected end of file"
deriving DecidableEq

def IFS : List Nat := [32, 9, 10]
def METACHARS : List Nat := [124, 38, 59, 40, 41, 60, 62]

def isIFS (c : Nat) : Bool := decide (c ∈ IFS)
def isMetaChar (c : Nat) : Bool := decide (c ∈ METACHARS)

/-- Finish a token at a loop exit of `lex_pop_token` (main.c:1500-1504): a
terminating `0` is appended iff `done_ifs` was set; the buffer stays `NULL`
iff nothing was ever inserted. -/
def lex_mk_tok (tok : List Nat) (meta premeta done_ifs : Bool) : LexTok :=
  { s := if tok = [] ∧ done_ifs = false then none
         else some (tok ++ if done_ifs then [0] else [])
    meta := meta
    premeta := premeta }

/-- The scanning loop of `lex_pop_token` (main.c:1437-1498).  The C nested
`while` over a quoted section is the `inQuote = some quoteChar` mode, so that
every step consumes exactly one input byte.  Returns the token, the remaining
input (the byte that caused a break is left in place, exactly as the C code
leaves `lex->cursor` on it) and the updated line counter. -/
def lex_raw (tok : List Nat) (meta done_ifs : Bool) (inQuote : Option Nat)
    (line : Nat) : List Nat → Except LexErr (LexTok × List Nat × Nat)
  | [] =>
    match inQuote with
    | some _ => .error .unterminatedQuote
    | none => .ok (lex_mk_tok tok meta false done_ifs, [], line)
  | c :: r =>
    match inQuote with
    | some q =>
      -- while (CURR && CURR != quote) { if '\n' line++; insert; }
      if c = q then lex_raw tok meta done_ifs none line r
      else if c = 0 then .error .unterminatedQuote
      else lex_raw (tok ++ [c]) meta done_ifs (some q)
        (if c = 10 then line + 1 else line) r
    | none =>
      if c = 0 then
        -- for-loop condition `CURR` fails: end of input
        .ok (lex_mk_tok tok meta false done_ifs, c :: r, line)
      else if isMetaChar c then
        if meta = false ∧ tok ≠ [] then
          -- word in progress: break and mark PREMETA, metachar left in input
          .ok (lex_mk_tok tok false true done_ifs, c :: r, line)
        else
          lex_raw (tok ++ [c]) true done_ifs none line r
      else if meta then
        -- metacharacter run ended by a non-metacharacter: break
        .ok (lex_mk_tok tok true false done_ifs, c :: r, line)
      else
        -- lines counter (before the IFS check, so a '\n' that breaks a word
        -- is counted now and again by the next call: faithful to the source)
        let line := if c = 10 then line + 1 else line
        if isIFS c then
          if done_ifs = false then lex_raw tok meta done_ifs none line r
          else .ok (lex_mk_tok tok meta false done_ifs, c :: r, line)
        else if c = 39 ∨ c = 34 then
          -- quote: skip the opening quote, enter quote mode
          lex_raw tok meta true (some c) line r
        else
          lex_raw (tok ++ [c]) meta true none line r

/-- `lex_pop_token` (main.c:1414): pop a buffered token if any, else scan. -/
def lex_pop_token (lex : Lex) : Except LexErr (LexTok × Lex) :=
  match lex.tok_head with
  | t :: ts => .ok (t, { lex with tok_head := ts })
  | [] =>
    match lex_raw [] false false none lex.line lex.rest with
    | .error e => .error e
    | .ok (tok, rest', line') => .ok (tok, { rest := rest', line := line', tok_head := [] })

/-- `lex_push_token` (main.c:1522). -/
def lex_push_token (lex : Lex) (tok : LexTok) : Lex :=
  { lex with tok_head := tok :: lex.tok_head }

/-! ## Parser (main.c lines 1531-1896) -/

/-- The `LEXRT_*` redirection types (main.c:1532). -/
inductive RedirType where
  | PATH_IN | PATH_OTRUNC | PATH_OAPPEND | PATH_INOUT | FD_IN | FD_OUT
deriving DecidableEq

def RedirType.isFd : RedirType → Bool
  | .FD_IN | .FD_OUT => true
  | _ => false

/-- `struct lex_redir` (main.c:1542).  The C `union source` is modelled as
both members with their `calloc` zero state: `source_s = none`,
`source_fd = 0`.  Note (main.c:1687-1695): for `FD_*` redirections the code
parses the source fd into the local `parsed_fd` but never stores it, so
`source.fd` keeps its `calloc` value `0`. -/
structure LexRedir where
  redir_fd : Int
  type : RedirType
  source_s : Option (List Nat)
  source_fd : Int
deriving DecidableEq

/-- `struct lex_proc` (main.c:1555): argv/envp as lists of C strings (the
terminating `NULL` entries that `lex_pop_proc` appends are representation
artefacts of `char **` and are not part of the lists). -/
structure LexProc where
  argv : List (List Nat)
  envp : List (List Nat)
  redirs : List LexRedir
deriving DecidableEq

/-- `is_valid_name` (main.c:184) on the name prefix bytes. -/
def is_valid_name (s : List Nat) : Bool :=
  match s with
  | [] => false
  | c :: r =>
    (decide (65 ≤ c ∧ c ≤ 90) || decide (97 ≤ c ∧ c ≤ 122) || decide (c = 95)) &&
    r.all (fun x =>
      decide (65 ≤ x ∧ x ≤ 90) || decide (97 ≤ x ∧ x ≤ 122) ||
      decide (48 ≤ x ∧ x ≤ 57) || decide (x = 95))

/-- `atol_exact(str, 10, &out)` (main.c:165): `strtol` semantics — skip
whitespace, optional sign, a run of decimal digits; fail unless the digit run
is non-empty and consumes the rest of the string, except that the empty
string converts nothing and succeeds with `0` (`*endp` is the terminator).
`ERANGE` is not modelled (the embedded integers are unbounded). -/
def atol_exact (s : List Nat) : Option Int :=
  let t := s.dropWhile (fun c => decide (c = 32) || decide (9 ≤ c ∧ c ≤ 13))
  let sign : Int := if t.head? = some 45 then -1 else 1
  let t2 := if t.head? = some 45 ∨ t.head? = some 43 then t.tail else t
  let digits := t2.takeWhile (fun c => decide (48 ≤ c ∧ c ≤ 57))
  let rest := t2.dropWhile (fun c => decide (48 ≤ c ∧ c ≤ 57))
  if digits = [] then (if s = [] then some 0 else none)
  else if rest = [] then
    some (sign * (digits.foldl (fun a c => a * 10 + (c - 48)) 0 : Nat))
  else none

/-- The `panic1`/`panic2` calls reachable from the parser: defensive checks
for states believed impossible (write to stderr and `_exit(1)`). -/
inductive BugKind where
  | metacharTokEmpty    -- panic1("metachar tok empty"), main.c:1617
  | doublePremeta       -- panic2("premeta tokens encountered twice, ..."), main.c:1727
  | unattendedPremeta   -- panic2("unattended premeta token", ..), main.c:1719
  | expectedMetachar    -- panic2("expected metacharacter", ..), main.c:1857
deriving DecidableEq

/-- Outcome of a parser call: normal result, `lex_set_error` + `-1`, a
`panic*` (process exits 1), undefined behaviour (`strtol(NULL,..)` if a
premeta token had a `NULL` buffer), or out of fuel. -/
inductive POut (α : Type) where
  | ok (a : α)
  | err (e : LexErr)
  | bug (k : BugKind)
  | ub
  | nofuel
deriving DecidableEq

/-- Append `arg` to envp or argv (main.c:1748-1771): while `done_vars` is
unset, a word containing `=` whose name prefix is valid goes to envp;
anything else sets `done_vars` and goes to argv. -/
def proc_add_word (p : LexProc) (done_vars : Bool) (arg : List Nat) :
    LexProc × Bool :=
  if done_vars = false ∧ (61 ∈ arg) ∧ is_valid_name (arg.takeWhile (fun c => c ≠ 61)) = true then
    ({ p with envp := p.envp ++ [arg] }, done_vars)
  else
    ({ p with argv := p.argv ++ [arg] }, true)

/-- The `while (lex->tok_head || *lex->cursor)` loop condition of
`lex_pop_proc` (main.c:1610) and `lex_pop_pipeline`'s progress test. -/
def lex_has_input (lex : Lex) : Bool :=
  !lex.tok_head.isEmpty ||
    (match lex.rest with
     | [] => false
     | c :: _ => c ≠ 0)

/-- The `strcmp` chain mapping a redirection operator's text to its
`LEXRT_*` type (main.c:1653-1664). -/
def lex_redir_type (op : List Nat) : Option RedirType :=
  if op = [60] then some .PATH_IN
  else if op = [62] then some .PATH_OTRUNC
  else if op = [62, 62] then some .PATH_OAPPEND
  else if op = [60, 62] then some .PATH_INOUT
  else if op = [60, 38] then some .FD_IN
  else if op = [62, 38] then some .FD_OUT
  else none

/-- The redirection tail of the meta branch (main.c:1639-1722): map the
operator text to a type, pop the source token, record the redirection.
`tfd` is the already-determined target fd; the local `premeta` is `NULL`
here (consumed or never set), which the `unattended premeta` check at
main.c:1718 re-verifies.  An `ok` result means the loop `continue`s with the
returned process and lexer state. -/
def lex_pop_proc_redir (p : LexProc) (lex : Lex) (op : List Nat) (tfd : Int) :
    POut (LexProc × Lex) :=
  match lex_redir_type op with
  | none => .err .unknownRedirOp
  | some rt =>
    match lex_pop_token lex with
    | .error e => .err e
    | .ok (tok2, lex2) =>
      match tok2.s with
      | none => .err .redirUnexpectedEof
      | some buf2 =>
        if tok2.meta then .err .redirUnexpectedTok
        else
          let src := cstr buf2
          if rt.isFd then
            match atol_exact src with
            | some v =>
              if v < 0 then .err .invalidRedirFd
              else
                -- NOTE: the parsed source fd v is dropped by the C code;
                -- redir->source.fd keeps its calloc value 0
                let redir : LexRedir :=
                  { redir_fd := tfd, type := rt, source_s := none, source_fd := 0 }
                let premeta2 : Option LexTok := none
                match premeta2 with
                | some _ => .bug .unattendedPremeta
                | none => .ok ({ p with redirs := p.redirs ++ [redir] }, lex2)
            | none => .err .invalidRedirFd
          else
            let redir : LexRedir :=
              { redir_fd := tfd, type := rt, source_s := some src, source_fd := 0 }
            let premeta2 : Option LexTok := none
            match premeta2 with
            | some _ => .bug .unattendedPremeta
            | none => .ok ({ p with redirs := p.redirs ++ [redir] }, lex2)

/-- The token-consuming loop of `lex_pop_proc` (main.c:1610-1772).  `fuel`
bounds the number of iterations; every `ok`/`err`/`bug` result is a faithful
image of a C execution, `nofuel` only signals an exhausted bound. -/
def lex_pop_proc_go (fuel : Nat) (p : LexProc) (premeta : Option LexTok)
    (done_vars : Bool) (lex : Lex) : POut (LexProc × Lex) :=
  match fuel with
  | 0 => .nofuel
  | fuel + 1 =>
    if lex_has_input lex = false then
      -- loop exits; a still-buffered premeta token would be freed at `out:`
      .ok (p, lex)
    else
      match lex_pop_token lex with
      | .error e => .err e
      | .ok (tok, lex1) =>
        if tok.meta then
          if tok.s = none ∨ tok.s = some [] then .bug .metacharTokEmpty
          else
            let buf := tok.s.getD []
            if buf.head? = some 60 ∨ buf.head? = some 62 then
              -- redirection; default fd by leading '<' / '>'
              let dfd : Int := if buf.head? = some 62 then 1 else 0
              -- parse redirect fd from the premeta token if available
              match premeta with
              | some pm =>
                match pm.s with
                | none => .ub   -- strtol(NULL, ..): cannot happen, see claim C6
                | some pbuf =>
                  match atol_exact (cstr pbuf) with
                  | some v =>
                    if v < 0 then
                      let lex2 := lex_push_token (lex_push_token lex1 tok) pm
                      lex_pop_proc_go fuel p none done_vars lex2
                    else
                      match lex_pop_proc_redir p lex1 (cstr buf) v with
                      | .ok (p', lex') => lex_pop_proc_go fuel p' none done_vars lex'
                      | .err e => .err e
                      | .bug k => .bug k
                      | .ub => .ub
                      | .nofuel => .nofuel
                  | none =>
                    -- invalid fd: push the meta token and the (flag-stripped)
                    -- premeta token back and reparse both as ordinary tokens
                    let lex2 := lex_push_token (lex_push_token lex1 tok) pm
                    lex_pop_proc_go fuel p none done_vars lex2
              | none =>
                match lex_pop_proc_redir p lex1 (cstr buf) dfd with
                | .ok (p', lex') => lex_pop_proc_go fuel p' none done_vars lex'
                | .err e => .err e
                | .bug k => .bug k
                | .ub => .ub
                | .nofuel => .nofuel
            else
              -- unknown metacharacter: push it back for the caller
              let lex2 := lex_push_token lex1 tok
              match premeta with
              | some pm => lex_pop_proc_go fuel p none done_vars (lex_push_token lex2 pm)
              | none => .ok (p, lex2)
        else if tok.premeta then
          match premeta with
          | some _ => .bug .doublePremeta
          | none =>
            -- buffer it with the PREMETA flag stripped
            lex_pop_proc_go fuel p (some { tok with premeta := false }) done_vars lex1
        else
          match premeta with
          | some pm =>
            -- push the fresh token back and process the buffered premeta word
            let lex2 := lex_push_token lex1 tok
            match pm.s with
            | none => lex_pop_proc_go fuel p none done_vars lex2
            | some buf =>
              let (p', dv') := proc_add_word p done_vars (cstr buf)
              lex_pop_proc_go fuel p' none dv' lex2
          | none =>
            match tok.s with
            | none => lex_pop_proc_go fuel p none done_vars lex1
            | some buf =>
              let (p', dv') := proc_add_word p done_vars (cstr buf)
              lex_pop_proc_go fuel p' none dv' lex1

/-- `lex_pop_proc` (main.c:1597). -/
def lex_pop_proc (fuel : Nat) (lex : Lex) : POut (LexProc × Lex) :=
  lex_pop_proc_go fuel { argv := [], envp := [], redirs := [] } none false lex

/-- The pipeline loop of `lex_pop_pipeline` (main.c:1822-1896). -/
def lex_pop_pipeline_go (fuel : Nat) (acc : List LexProc) (lex : Lex) :
    POut (List LexProc × Lex) :=
  match fuel with
  | 0 => .nofuel
  | fuel + 1 =>
    match lex_pop_proc (fuel + 1) lex with
    | .err e => .err e
    | .bug k => .bug k
    | .ub => .ub
    | .nofuel => .nofuel
    | .ok (proc, lex1) =>
      let acc := acc ++ [proc]
      match lex_pop_token lex1 with
      | .error e => .err e
      | .ok (tok, lex2) =>
        match tok.s with
        | none => .ok (acc, lex2)   -- EOF
        | some buf =>
          if tok.meta = false then .bug .expectedMetachar
          else if cstr buf ≠ [124] then .err .unexpectedMetachar
          else
            match lex_pop_token lex2 with
            | .error e => .err e
            | .ok (tok2, lex3) =>
              match tok2.s with
              | none => .err .pipeUnexpectedEof
              | some _ => lex_pop_pipeline_go fuel acc (lex_push_token lex3 tok2)

/-- `lex_pop_pipeline` (main.c:1822). -/
def lex_pop_pipeline (fuel : Nat) (lex : Lex) : POut (List LexProc × Lex) :=
  lex_pop_pipeline_go fuel [] lex

/-- ASCII bytes of a Lean string literal, for concrete test inputs. -/
def bytesOf (s : String) : List Nat := s.data.map Char.toNat

/-! ### Specification predicates for the parser safety claim (C6) -/

/-- Well-formedness of a token as produced by the lexer: a META token always
carries a non-empty buffer, and a PRE-META token is a word token (not META)
with a non-empty buffer. -/
def TokWF (t : LexTok) : Prop :=
  (t.meta = true → ∃ l, t.s = some l ∧ l ≠ []) ∧
  (t.premeta = true → t.meta = false ∧ ∃ l, t.s = some l ∧ l ≠ [])

/-- The remaining input starts with a metacharacter byte. -/
def restHeadMeta (rest : List Nat) : Prop :=
  ∃ c r, rest = c :: r ∧ isMetaChar c = true

/-- Invariant on the lexer's push-back stack: every buffered token is
well-formed, and a PRE-META token can only be alone on the stack with the
input cursor sitting on the metacharacter that terminated it. -/
def StackInv (lex : Lex) : Prop :=
  (∀ t ∈ lex.tok_head, TokWF t) ∧
  (∀ t ∈ lex.tok_head, t.premeta = true → lex.tok_head = [t] ∧ restHeadMeta lex.rest)

/-- Invariant on `lex_pop_proc`'s buffered premeta token: it is a plain word
token with a buffer, the stack is empty and the input cursor sits on the
metacharacter that terminated it. -/
def PremetaInv (premeta : Option LexTok) (lex : Lex) : Prop :=
  ∀ pm, premeta = some pm → pm.meta = false ∧ pm.premeta = false ∧
    (∃ l, pm.s = some l ∧ l ≠ []) ∧ lex.tok_head = [] ∧ restHeadMeta lex.rest

/-- Soundness of one `lex_pop_proc` result: it is never a panic, and a normal
result leaves a lexer state satisfying the stack invariant in which the next
token is either end-of-input or a pushed-back META token. -/
def GoodProcRes (res : POut (LexProc × Lex)) : Prop :=
  (∀ k, res ≠ .bug k) ∧
  (∀ pr lex', res = .ok (pr, lex') → StackInv lex' ∧
     (lex_has_input lex' = false ∨ ∃ t ts, lex'.tok_head = t :: ts ∧ t.meta = true))

/-! ## Child launch, argv[0] resolution (main.c:2114-2126) -/

/-- What `rmsh_child` does at its argv[0]-resolution step. -/
inductive ChildResolve where
  | nullDeref                      -- argv[0] is NULL: strchr(NULL, '/') - undefined behaviour
  | execVerbatim (path : List Nat) -- argv[0] contains '/': strdup and execv it
  | searchPath (cmd : List Nat)    -- resolve_command_path over $PATH, else "command not found"
deriving DecidableEq

/-- main.c:2114-2126: `strchr(p->lex->argv[0], '/')` is called without
checking that argv has a first entry; a process with empty argv reaches this
with `argv[0] == NULL` (the list model's `[]`), which is a null-pointer
dereference, not a reported error. -/
def rmsh_child_resolve (p : LexProc) : ChildResolve :=
  match p.argv with
  | [] => .nullDeref
  | a0 :: _ => if 47 ∈ a0 then .execVerbatim a0 else .searchPath a0

/-! ## Line editor (main.c lines 264-1205)

Only the parts reached by the claimed events in non-search mode are embedded:
`__prompt_output_line`, `__prompt_output_backspace_line`, `__prompt_output_del`
and the four cursor motions.  Printing (`__print_*`) has no effect on the
editor state and is omitted. -/

/-- `struct prompt` (main.c:264) together with the global history ring that
`__prompt_get` falls back to.  `prmt_line` models the `char *prmt_line[HIST_MAX+1]`
array (entries `NULL`/absent until materialized); the search-overlay fields
are not modelled (the claimed events are dispatched in non-search mode). -/
structure Prompt where
  hist : Hist
  prmt_line : Nat → Option (List Nat)
  prmt_cur_row : Nat
  prmt_cur_col : Nat

/-- `__prompt_get` (main.c:286): the buffered row if present, else the
shadowed history entry for rows ≥ 1. -/
def __prompt_get (p : Prompt) (idx : Nat) : Option (List Nat) :=
  if 1 + HIST_MAX ≤ idx then none
  else
    match p.prmt_line idx with
    | some l => some l
    | none => if idx ≠ 0 then history_get p.hist (idx - 1) else none

/-- `prompt_get` (main.c:292). -/
def prompt_get (p : Prompt) : Option (List Nat) := __prompt_get p p.prmt_cur_row

/-- Failure of an editor operation: `fail` is the C `return -1`; `ub` marks a
C path that reads or moves memory out of bounds (reachable only from states
that violate the editor's invariants); `nofuel` is an exhausted loop bound
(HOME/END iterate at most `col`/`strlen` times, so the provided fuel always
suffices on reachable states). -/
inductive PErr where
  | fail | ub | nofuel
deriving DecidableEq

/-- The lazy history copy done by the three mutating operations
(main.c:758-762, 908-912, 943-947): if the current row's buffer is absent,
the row is > 0 and history has an entry there, duplicate it into the buffer.
The operation then mutates only this copy. -/
def prompt_materialize (p : Prompt) : Prompt :=
  match p.prmt_line p.prmt_cur_row with
  | some _ => p
  | none =>
    if p.prmt_cur_row ≠ 0 then
      match history_get p.hist (p.prmt_cur_row - 1) with
      | some h =>
        { p with prmt_line := Function.update p.prmt_line p.prmt_cur_row (some h) }
      | none => p
    else p

/-- `__prompt_output_line` (main.c:745): insert the bytes `s` at the cursor.
The `memmove` with `curr_line_sz - prmt_cur_col` is undefined if the cursor
is past the end of the line (`ub`). -/
def __prompt_output_line (p : Prompt) (s : List Nat) : Except PErr Prompt :=
  match utf8_strnlen s with
  | none => .error .fail
  | some moves =>
    if moves = 0 then .error .fail
    else
      let p1 := prompt_materialize p
      let curr := (p1.prmt_line p1.prmt_cur_row).getD []   -- realloc(NULL,..) is a fresh buffer
      if curr.length < p1.prmt_cur_col then .error .ub
      else
        let line' := curr.take p1.prmt_cur_col ++ s ++ curr.drop p1.prmt_cur_col
        .ok { p1 with
                prmt_line := Function.update p1.prmt_line p1.prmt_cur_row (some line')
                prmt_cur_col := p1.prmt_cur_col + s.length }

/-- `__prompt_output_backspace_line` (main.c:900): delete the code point
before the cursor, using `utf8_rsize` on the prefix. -/
def __prompt_output_backspace_line (p : Prompt) : Except PErr Prompt :=
  if p.prmt_cur_col = 0 then .ok p
  else
    let p1 := prompt_materialize p
    match p1.prmt_line p1.prmt_cur_row with
    | none => .error .ub    -- utf8_rsize(NULL, col) with col > 0
    | some curr =>
      if curr.length < p1.prmt_cur_col then .error .ub
      else
        let del := utf8_rsize (curr.take p1.prmt_cur_col)
        if del = 0 then .error .fail
        else
          let del := if p1.prmt_cur_col < del then p1.prmt_cur_col else del
          let line' := curr.take (p1.prmt_cur_col - del) ++ curr.drop p1.prmt_cur_col
          .ok { p1 with
                  prmt_line := Function.update p1.prmt_line p1.prmt_cur_row (some line')
                  prmt_cur_col := p1.prmt_cur_col - del }

/-- `__prompt_output_del` (main.c:932): delete the code point at the cursor.
The code checks only `del == 0`; a `-1` from `utf8_size` (invalid lead byte)
falls through into a `memmove` from `curr + col - 1`, modelled as `ub`. -/
def __prompt_output_del (p : Prompt) : Except PErr Prompt :=
  let n := ((prompt_get p).getD []).length
  if n ≤ p.prmt_cur_col then .ok p
  else
    let p1 := prompt_materialize p
    match p1.prmt_line p1.prmt_cur_row with
    | none => .error .ub
    | some curr =>
      let del : Int := utf8_size (curr.getD p1.prmt_cur_col 0)
      if del = 0 then .error .fail
      else if del < 0 then .error .ub
      else
        let delN := if (n - p1.prmt_cur_col : Nat) < del.toNat then n - p1.prmt_cur_col else del.toNat
        let line' := curr.take p1.prmt_cur_col ++ curr.drop (p1.prmt_cur_col + delN)
        .ok { p1 with
                prmt_line := Function.update p1.prmt_line p1.prmt_cur_row (some line') }

/-- `__prompt_output_cursor_backward` (main.c:967), state effect only. -/
def __prompt_output_cursor_backward (p : Prompt) : Except PErr Prompt :=
  if p.prmt_cur_col = 0 then .ok p
  else
    let curr := (prompt_get p).getD []
    if curr.length < p.prmt_cur_col then .error .ub   -- utf8_rsize past the end / on NULL
    else
      let cnt := utf8_rsize (curr.take p.prmt_cur_col)
      if cnt = 0 then .error .fail
      else
        let cnt := if p.prmt_cur_col < cnt then p.prmt_cur_col else cnt
        .ok { p with prmt_cur_col := p.prmt_cur_col - cnt }

/-- `__prompt_output_cursor_forward` (main.c:993), state effect only. -/
def __prompt_output_cursor_forward (p : Prompt) : Except PErr Prompt :=
  let curr := (prompt_get p).getD []
  if curr.length ≤ p.prmt_cur_col then .ok p
  else
    let cnt : Int := utf8_size (curr.getD p.prmt_cur_col 0)
    if cnt = 0 ∨ cnt = -1 then .error .fail
    else
      let cntN := if curr.length < p.prmt_cur_col + cnt.toNat then curr.length - p.prmt_cur_col else cnt.toNat
      .ok { p with prmt_cur_col := p.prmt_cur_col + cntN }

/-- The `while (p->prmt_cur_col)` loop of `__prompt_output_cursor_home`
(main.c:1021); each backward step strictly decreases the column. -/
def __prompt_output_cursor_home_go (fuel : Nat) (p : Prompt) : Except PErr Prompt :=
  match fuel with
  | 0 => .error .nofuel
  | fuel + 1 =>
    if p.prmt_cur_col = 0 then .ok p
    else
      match __prompt_output_cursor_backward p with
      | .error e => .error e
      | .ok p' => __prompt_output_cursor_home_go fuel p'

def __prompt_output_cursor_home (p : Prompt) : Except PErr Prompt :=
  __prompt_output_cursor_home_go (p.prmt_cur_col + 1) p

/-- The `while (col < curr_line_sz)` loop of `__prompt_output_cursor_end`
(main.c:1041); `curr_line_sz` is computed once before the loop. -/
def __prompt_output_cursor_end_go (fuel sz : Nat) (p : Prompt) : Except PErr Prompt :=
  match fuel with
  | 0 => .error .nofuel
  | fuel + 1 =>
    if sz ≤ p.prmt_cur_col then .ok p
    else
      match __prompt_output_cursor_forward p with
      | .error e => .error e
      | .ok p' => __prompt_output_cursor_end_go fuel sz p'

def __prompt_output_cursor_end (p : Prompt) : Except PErr Prompt :=
  __prompt_output_cursor_end_go (((prompt_get p).getD []).length + 1)
    ((prompt_get p).getD []).length p

/-- The claimed editor events, dispatched by `__prompt_output`
(main.c:1129-1205) in non-search mode. -/
inductive PEvent where
  | text (data : List Nat)
  | bckward | forward | backspace | del | home | end'
deriving DecidableEq

/-- One dispatch step of `__prompt_output` for the claimed events. -/
def prompt_step (p : Prompt) : PEvent → Except PErr Prompt
  | .text s => __prompt_output_line p s
  | .bckward => __prompt_output_cursor_backward p
  | .forward => __prompt_output_cursor_forward p
  | .backspace => __prompt_output_backspace_line p
  | .del => __prompt_output_del p
  | .home => __prompt_output_cursor_home p
  | .end' => __prompt_output_cursor_end p

/-- Run a sequence of editor events; any failure aborts the session (the
editor turns it into the `INTERRUPT` sentinel). -/
def prompt_run (p : Prompt) : List PEvent → Except PErr Prompt
  | [] => .ok p
  | e :: es =>
    match prompt_step p e with
    | .error x => .error x
    | .ok p' => prompt_run p' es

/-! ### Specification predicates for the editor claims (C7) -/

/-- Well-formedness of an editor state for the cursor claim: the current row
index is within the `HIST_MAX + 1` array, the current row's effective string
splits at the cursor into two well-formed UTF-8 halves (so the cursor is on a
code point boundary), and the cursor is inside the string. -/
def PromptWF (st : Prompt) : Prop :=
  st.prmt_cur_row < 1 + HIST_MAX ∧
  st.prmt_cur_col ≤ ((prompt_get st).getD []).length ∧
  u8valid (((prompt_get st).getD []).take st.prmt_cur_col) = true ∧
  u8valid (((prompt_get st).getD []).drop st.prmt_cur_col) = true

/-- The decoder only hands the editor whole code points as TEXT payloads. -/
def PEventWF : PEvent → Bool
  | .text b => isCp b
  | _ => true

/-! # Theorems -/

/-! ## C9: key decoder HOME/END sequences -/

/-- Claim C9: the key decoder emits HOME for each of `^A`, `ESC [ 1 ~`,
`ESC [ 7 ~`, `ESC [ H`, `ESC O H`, and END for each of `^E`, `ESC [ 4 ~`,
`ESC [ 8 ~`, `ESC [ F`, `ESC O F`, and answers "need more bytes" on every
proper prefix of these sequences. -/
theorem claim_C9 :
    (termchar_run [0x01] = .emit (.ctrl .HOME) ∧
     termchar_run [0x1b, 0x5b, 0x31, 0x7e] = .emit (.ctrl .HOME) ∧
     termchar_run [0x1b, 0x5b, 0x37, 0x7e] = .emit (.ctrl .HOME) ∧
     termchar_run [0x1b, 0x5b, 0x48] = .emit (.ctrl .HOME) ∧
     termchar_run [0x1b, 0x4f, 0x48] = .emit (.ctrl .HOME)) ∧
    (termchar_run [0x05] = .emit (.ctrl .END) ∧
     termchar_run [0x1b, 0x5b, 0x34, 0x7e] = .emit (.ctrl .END) ∧
     termchar_run [0x1b, 0x5b, 0x38, 0x7e] = .emit (.ctrl .END) ∧
     termchar_run [0x1b, 0x5b, 0x46] = .emit (.ctrl .END) ∧
     termchar_run [0x1b, 0x4f, 0x46] = .emit (.ctrl .END)) ∧
    (∀ seq ∈ [[0x01], [0x1b, 0x5b, 0x31, 0x7e], [0x1b, 0x5b, 0x37, 0x7e],
              [0x1b, 0x5b, 0x48], [0x1b, 0x4f, 0x48],
              [0x05], [0x1b, 0x5b, 0x34, 0x7e], [0x1b, 0x5b, 0x38, 0x7e],
              [0x1b, 0x5b, 0x46], [0x1b, 0x4f, 0x46]],
       ∀ k ∈ List.range seq.length, tchIsMore (termchar_run (seq.take k)) = true) := by
  decide

/-! ## C10: lexer push-back round trip -/

/-- Claim C10: pushing a token with `lex_push_token` and popping with
`lex_pop_token` returns exactly that token and restores the lexer state
(input cursor, line counter, buffered tokens) unchanged. -/
theorem claim_C10 (lex : Lex) (tok : LexTok) :
    lex_pop_token (lex_push_token lex tok) = .ok (tok, lex) := rfl

/-! ## C5: quoted-piece concatenation -/

/-- Claim C5: `"hello world"` lexes to a pipeline of one process whose single
argv entry is `hello world`; `'it''s'` lexes to the single argv entry `its`. -/
theorem claim_C5 :
    lex_pop_pipeline 100 (lex_init (bytesOf "\"hello world\""))
      = .ok ([{ argv := [bytesOf "hello world"], envp := [], redirs := [] }],
             { rest := [], line := 1, tok_head := [] }) ∧
    lex_pop_pipeline 100 (lex_init (bytesOf "'it''s'"))
      = .ok ([{ argv := [bytesOf "its"], envp := [], redirs := [] }],
             { rest := [], line := 1, tok_head := [] }) := by
  exact ⟨rfl, rfl⟩

/-! ## C1: `cmd 2>err.txt >&1`

The claim asserts the second redirection records source fd `1`.  The code
(main.c:1687-1695) validates the source fd with `atol_exact` into the local
`parsed_fd` but never assigns `redir->source.fd`, which keeps its `calloc`
value `0`.  Everything else in the claim (argv, order, target fds, types,
path) holds.  This contradicts the code's own intent (the parsed value is
dead, and `rmsh_child` then duplicates fd 0 for every `>&`/`<&`), so the
claim is recorded as a code bug; the theorem below evaluates the parse and
exhibits `source_fd = 0` where the claim requires `1`. -/

/-- Parse of `cmd 2>err.txt >&1`: one process, argv `[cmd]`, redirections
`[(fd 2, PATH_OTRUNC, "err.txt"), (fd 1, FD_OUT, source fd 0)]` — the source
fd of the `>&` redirection is `0`, not the written `1`. -/
theorem claim_C1_eval :
    lex_pop_pipeline 100 (lex_init (bytesOf "cmd 2>err.txt >&1"))
      = .ok ([{ argv := [bytesOf "cmd"], envp := [],
                redirs := [{ redir_fd := 2, type := .PATH_OTRUNC,
                             source_s := some (bytesOf "err.txt"), source_fd := 0 },
                           { redir_fd := 1, type := .FD_OUT,
                             source_s := none, source_fd := 0 }] }],
             { rest := [], line := 1, tok_head := [] }) := by
  exact rfl

/-! ## C2: launching a process with empty argv

The claim says the forked child reports an error and exits with status 1.
In fact `rmsh_child` (main.c:2115) immediately evaluates
`strchr(p->lex->argv[0], '/')`; for a process with empty argv the argv array
holds only the terminating `NULL`, so this dereferences a null pointer —
undefined behaviour (a crash), not a reported error.  Input `FOO=1` parses to
exactly such a process and is launched unconditionally by `rmsh_launch_job`.
Recorded as a code bug; the theorem evaluates the parse of `FOO=1` and the
child's argv[0]-resolution step on it. -/

/-- `FOO=1` parses to a single process with empty argv, and the child's
resolution step on that process is the null dereference, not an error exit. -/
theorem claim_C2_eval :
    lex_pop_pipeline 100 (lex_init (bytesOf "FOO=1"))
      = .ok ([{ argv := [], envp := [bytesOf "FOO=1"], redirs := [] }],
             { rest := [], line := 1, tok_head := [] }) ∧
    rmsh_child_resolve { argv := [], envp := [bytesOf "FOO=1"], redirs := [] }
      = .nullDeref := by
  exact ⟨rfl, rfl⟩

/-! ## C3: `utf8_rsize` -/

theorem utf8_size_le_four (c : Nat) : utf8_size c ≤ 4 := by
  unfold utf8_size
  repeat' split
  all_goals omega

theorem not_isCont_of_size_pos {c : Nat} (h : 1 ≤ utf8_size c) : isCont c = false := by
  unfold utf8_size at h
  unfold isCont
  by_cases h1 : c ≤ 0x7f
  · have h2 : c &&& 0xc0 ≤ c := Nat.and_le_left
    simp only [decide_eq_false_iff_not]
    omega
  · simp only [h1, if_false] at h
    by_cases h2 : c &&& 0xc0 = 0x80
    · simp [h2] at h
    · simp [h2]

/-- On a buffer ending in a single well-formed code point, the backward scan
of `utf8_rsize` stops exactly at the code point's lead byte. -/
theorem utf8_rsize_concat (u cp : List Nat) (h : isCp cp = true) :
    utf8_rsize (u ++ cp) = cp.length := by
  match cp, h with
  | c :: r, h =>
    simp only [isCp, Bool.and_eq_true, decide_eq_true_eq] at h
    obtain ⟨⟨h1, _h2⟩, h3⟩ := h
    have hc : isCont c = false := not_isCont_of_size_pos h1
    unfold utf8_rsize
    have hrev : (u ++ c :: r).reverse = r.reverse ++ c :: u.reverse := by
      simp [List.reverse_append]
    rw [hrev]
    have hall : (List.takeWhile isCont r.reverse).length = r.reverse.length := by
      rw [List.takeWhile_eq_self_iff.2]
      intro x hx
      exact (List.all_eq_true.1 h3) x (List.mem_reverse.1 hx)
    rw [List.takeWhile_append, if_pos hall, List.takeWhile_cons_of_neg (by simp [hc])]
    simp only [List.length_append, List.length_reverse, List.length_nil, List.length_cons]
    have hne : ¬(r.length + 0 = u.length + (r.length + 1)) := by omega
    rw [if_neg hne]

/-- `utf8_rsize` returns `0` exactly when the whole buffer consists of
continuation bytes (in particular when it is empty). -/
theorem utf8_rsize_eq_zero_iff (s : List Nat) :
    utf8_rsize s = 0 ↔ s.all isCont = true := by
  have key : (s.reverse.takeWhile isCont).length = s.length ↔ s.all isCont = true := by
    constructor
    · intro ht
      have heq : List.takeWhile isCont s.reverse = s.reverse :=
        (List.takeWhile_prefix isCont).eq_of_length (by rw [ht, List.length_reverse])
      rw [← List.all_reverse, List.all_eq_true]
      exact List.takeWhile_eq_self_iff.1 heq
    · intro h
      have heq : List.takeWhile isCont s.reverse = s.reverse := by
        rw [List.takeWhile_eq_self_iff]
        intro x hx
        exact (List.all_eq_true.1 h) x (List.mem_reverse.1 hx)
      rw [heq, List.length_reverse]
  simp only [utf8_rsize]
  by_cases ht : (s.reverse.takeWhile isCont).length = s.length
  · rw [if_pos ht]
    simp [key.1 ht]
  · rw [if_neg ht]
    constructor
    · omega
    · intro h
      exact absurd (key.2 h) ht

/-- Counterexample to claim C3 as stated: the buffer `[0x61, 0x80]` (`'a'`
followed by a stray continuation byte) does not end on a well-formed code
point, yet `utf8_rsize` returns `2`, not `0` — the scan does not validate
the lead byte it stops at. -/
theorem claim_C3_counterexample :
    endsOnCp [0x61, 0x80] = false ∧ utf8_rsize [0x61, 0x80] = 2 := by
  decide

/-- Claim C3 (amended): when the buffer ends on a well-formed code point
starting at index `u.length`, `utf8_rsize` returns its byte count, a value
in `{1,2,3,4}` equal to `n − idx_of_last_codepoint_start`; and `utf8_rsize`
returns `0` if and only if the buffer consists entirely of continuation
bytes (rather than whenever the buffer fails to end on a code point
boundary). -/
theorem claim_C3_amended :
    (∀ u cp : List Nat, isCp cp = true →
       utf8_rsize (u ++ cp) = (u ++ cp).length - u.length ∧
       1 ≤ utf8_rsize (u ++ cp) ∧ utf8_rsize (u ++ cp) ≤ 4) ∧
    (∀ s : List Nat, utf8_rsize s = 0 ↔ s.all isCont = true) := by
  refine ⟨fun u cp h => ?_, utf8_rsize_eq_zero_iff⟩
  have heq := utf8_rsize_concat u cp h
  match cp, h with
  | c :: r, h =>
    simp only [isCp, Bool.and_eq_true, decide_eq_true_eq] at h
    obtain ⟨⟨h1, h2⟩, _⟩ := h
    have h4 := utf8_size_le_four c
    refine ⟨?_, ?_, ?_⟩
    · rw [heq]; simp
    · rw [heq]; simp
    · rw [heq]
      simp only [List.length_cons]
      omega

/-- Witness for claim C3 at concrete inputs: `é` (2 bytes) after `a`, and a
buffer of two continuation bytes. -/
theorem claim_C3_witness :
    (isCp [0xc3, 0xa9] = true) ∧
    (utf8_rsize ([0x61] ++ [0xc3, 0xa9]) = ([0x61] ++ [0xc3, 0xa9]).length - [0x61].length ∧
     1 ≤ utf8_rsize ([0x61] ++ [0xc3, 0xa9]) ∧ utf8_rsize ([0x61] ++ [0xc3, 0xa9]) ≤ 4) ∧
    (utf8_rsize [0x80, 0x80] = 0 ↔ [0x80, 0x80].all isCont = true) :=
  ⟨by decide, claim_C3_amended.1 [0x61] [0xc3, 0xa9] (by decide),
    claim_C3_amended.2 [0x80, 0x80]⟩

/-! ## C4: history ring -/

theorem hist_cur_lt_add (x : List Nat) (h : Hist) (hc : h.cur < HIST_MAX) :
    (history_add x h).cur < HIST_MAX := by
  simp only [history_add, HIST_MAX] at *
  split <;> omega

theorem hist_cur_lt_addAll (xs : List (List Nat)) (h : Hist) (hc : h.cur < HIST_MAX) :
    (history_addAll xs h).cur < HIST_MAX := by
  induction xs generalizing h with
  | nil => exact hc
  | cons x xs ih =>
    simp only [history_addAll, List.foldl_cons] at *
    exact ih _ (hist_cur_lt_add x h hc)

/-- Immediately after `history_add x`, index 0 reads back `x`. -/
theorem history_get_add_zero (x : List Nat) (h : Hist) (hc : h.cur < HIST_MAX) :
    history_get (history_add x h) 0 = some x := by
  simp only [HIST_MAX] at hc
  simp only [history_get, history_add, HIST_MAX]
  by_cases hck : 512 ≤ h.cur + 1
  · have hcur : h.cur = 511 := by omega
    rw [if_neg (by omega : ¬(512 ≤ 0)), if_pos hck,
        if_neg (by omega : ¬(0 + 1 ≤ 0))]
    rw [show 512 - (0 + 1 - 0) = h.cur by omega]
    simp
  · rw [if_neg (by omega : ¬(512 ≤ 0)), if_neg hck,
        if_pos (by omega : 0 + 1 ≤ h.cur + 1)]
    rw [show h.cur + 1 - (0 + 1) = h.cur by omega]
    simp

/-- `history_add` shifts every other logical index up by one. -/
theorem history_get_add_succ (x : List Nat) (h : Hist) (i : Nat)
    (hc : h.cur < HIST_MAX) (hi : i + 1 < HIST_MAX) :
    history_get (history_add x h) (i + 1) = history_get h i := by
  simp only [HIST_MAX] at hc hi
  simp only [history_get, history_add, HIST_MAX]
  rw [if_neg (by omega : ¬(512 ≤ i + 1)), if_neg (by omega : ¬(512 ≤ i))]
  by_cases hck : 512 ≤ h.cur + 1
  · have hcur : h.cur = 511 := by omega
    rw [if_pos hck, if_neg (by omega : ¬(i + 1 + 1 ≤ 0)),
        if_pos (by omega : i + 1 ≤ h.cur)]
    rw [Function.update_noteq (by omega : 512 - (i + 1 + 1 - 0) ≠ h.cur)]
    congr 1
    omega
  · rw [if_neg hck]
    by_cases hin : i + 1 ≤ h.cur
    · rw [if_pos (by omega : i + 1 + 1 ≤ h.cur + 1), if_pos hin]
      rw [Function.update_noteq (by omega : h.cur + 1 - (i + 1 + 1) ≠ h.cur)]
      congr 1
      omega
    · rw [if_neg (by omega : ¬(i + 1 + 1 ≤ h.cur + 1)), if_neg hin]
      rw [Function.update_noteq (by omega : 512 - (i + 1 + 1 - (h.cur + 1)) ≠ h.cur)]
      congr 1
      omega

/-- After adding `xs` in order to the empty ring, logical index `i` reads the
`i`-th most recent entry, for `i < min (length xs) HIST_MAX`. -/
theorem history_addAll_get : ∀ (xs : List (List Nat)), ∀ i, i < min xs.length HIST_MAX →
    history_get (history_addAll xs hist_empty) i = xs[xs.length - 1 - i]? := by
  intro xs
  induction xs using List.reverseRecOn with
  | nil => intro i hi; simp [HIST_MAX] at hi
  | append_singleton l a ih =>
    intro i hi
    have hlt : (history_addAll l hist_empty).cur < HIST_MAX :=
      hist_cur_lt_addAll l hist_empty (by simp [hist_empty, HIST_MAX])
    have hfold : history_addAll (l ++ [a]) hist_empty
        = history_add a (history_addAll l hist_empty) := by
      simp [history_addAll, List.foldl_append]
    rw [hfold]
    match i with
    | 0 =>
      rw [history_get_add_zero a _ hlt]
      rw [show (l ++ [a]).length - 1 - 0 = l.length by simp]
      rw [List.getElem?_concat_length]
    | j + 1 =>
      simp only [List.length_append, List.length_singleton, HIST_MAX] at hi
      have hj1 : j + 1 < HIST_MAX := by simp only [HIST_MAX]; omega
      have hjl : j < l.length := by omega
      rw [history_get_add_succ a _ j hlt hj1]
      rw [ih j (by simp only [HIST_MAX]; omega)]
      rw [show (l ++ [a]).length - 1 - (j + 1) = l.length - 1 - j by
            simp only [List.length_append, List.length_singleton]; omega]
      rw [List.getElem?_append, if_pos (by omega : l.length - 1 - j < l.length)]

/-- Claim C4: for the history ring of capacity `HIST_MAX = 512`: after
`history_add x`, `history_get 0 = x`; after adding `x₀..x_{k-1}` to an empty
ring, `history_get i = x_{k-1-i}` for every `i < min k HIST_MAX`; and after
`HIST_MAX + 1` adds, `history_get (HIST_MAX - 1)` is the second value added
(the first was evicted by wraparound). -/
theorem claim_C4 :
    (∀ (h : Hist) (x : List Nat), h.cur < HIST_MAX →
        history_get (history_add x h) 0 = some x) ∧
    (∀ (xs : List (List Nat)) (i : Nat), i < min xs.length HIST_MAX →
        history_get (history_addAll xs hist_empty) i = xs[xs.length - 1 - i]?) ∧
    (∀ xs : List (List Nat), xs.length = HIST_MAX + 1 →
        history_get (history_addAll xs hist_empty) (HIST_MAX - 1) = xs[1]?) := by
  refine ⟨fun h x hc => history_get_add_zero x h hc,
          fun xs i hi => history_addAll_get xs i hi, fun xs hlen => ?_⟩
  have h1 := history_addAll_get xs (HIST_MAX - 1)
    (by simp only [hlen, HIST_MAX]; omega)
  rw [show xs.length - 1 - (HIST_MAX - 1) = 1 from by
        simp only [hlen, HIST_MAX]] at h1
  exact h1

/-- Witness for claim C4 on concrete rings, including a full wraparound of
513 adds. -/
theorem claim_C4_witness :
    (history_get (history_add [1] hist_empty) 0 = some [1]) ∧
    (history_get (history_addAll [[1], [2]] hist_empty) 1 = [[1], [2]][[[1], [2]].length - 1 - 1]?) ∧
    (history_get (history_addAll (List.replicate 513 [7]) hist_empty) (HIST_MAX - 1)
       = (List.replicate 513 [7])[1]?) :=
  ⟨claim_C4.1 hist_empty [1] (by decide),
   claim_C4.2.1 [[1], [2]] 1 (by decide),
   claim_C4.2.2 (List.replicate 513 [7]) (by rw [List.length_replicate]; rfl)⟩

/-! ## C6: the parser's fatal panics are unreachable -/

/-- Tokens finished by `lex_mk_tok` are well-formed provided META implies a
non-empty buffer and PRE-META implies a non-META non-empty buffer. -/
theorem lex_mk_tok_wf (tok : List Nat) (meta premeta done_ifs : Bool)
    (hm : meta = true → tok ≠ []) (hpm : premeta = true → meta = false ∧ tok ≠ []) :
    TokWF (lex_mk_tok tok meta premeta done_ifs) := by
  constructor
  · intro h
    have ht := hm h
    refine ⟨tok ++ if done_ifs then [0] else [], ?_, by simp [ht]⟩
    simp [lex_mk_tok, ht]
  · intro h
    obtain ⟨hmf, ht⟩ := hpm h
    refine ⟨by simp [lex_mk_tok, hmf], tok ++ if done_ifs then [0] else [], ?_, by simp [ht]⟩
    simp [lex_mk_tok, ht]

/-- Structural facts about every token the scanning loop can return: META
tokens have non-empty buffers, and a PRE-META token is a non-META word token
with a buffer whose terminating metacharacter is still the head of the
remaining input. -/
theorem lex_raw_spec (rest : List Nat) :
    ∀ (tok : List Nat) (meta done_ifs : Bool) (inQuote : Option Nat) (line : Nat)
      (tk : LexTok) (rest' : List Nat) (line' : Nat),
      (meta = true → tok ≠ []) →
      lex_raw tok meta done_ifs inQuote line rest = .ok (tk, rest', line') →
      TokWF tk ∧
      (tk.premeta = true → restHeadMeta rest') := by
  induction rest with
  | nil =>
    intro tok meta done_ifs inQuote line tk rest' line' hmt hok
    match inQuote with
    | some q => simp [lex_raw] at hok
    | none =>
      simp only [lex_raw, Except.ok.injEq, Prod.mk.injEq] at hok
      obtain ⟨h1, _h2, _h3⟩ := hok
      subst h1
      refine ⟨lex_mk_tok_wf tok meta false done_ifs hmt (by simp), ?_⟩
      intro hp
      simp [lex_mk_tok] at hp
  | cons c r ih =>
    intro tok meta done_ifs inQuote line tk rest' line' hmt hok
    match inQuote with
    | some q =>
      simp only [lex_raw] at hok
      by_cases hcq : c = q
      · rw [if_pos hcq] at hok
        exact ih tok meta done_ifs none line tk rest' line' hmt hok
      · rw [if_neg hcq] at hok
        by_cases hc0 : c = 0
        · rw [if_pos hc0] at hok
          simp at hok
        · rw [if_neg hc0] at hok
          exact ih (tok ++ [c]) meta done_ifs (some q) _ tk rest' line'
            (fun _ => by simp) hok
    | none =>
      simp only [lex_raw] at hok
      by_cases hc0 : c = 0
      · rw [if_pos hc0] at hok
        simp only [Except.ok.injEq, Prod.mk.injEq] at hok
        obtain ⟨h1, h2, _h3⟩ := hok
        subst h1
        refine ⟨lex_mk_tok_wf tok meta false done_ifs hmt (by simp), ?_⟩
        intro hp
        simp [lex_mk_tok] at hp
      · rw [if_neg hc0] at hok
        by_cases hmc : isMetaChar c = true
        · rw [if_pos hmc] at hok
          by_cases hpre : meta = false ∧ tok ≠ []
          · rw [if_pos hpre] at hok
            simp only [Except.ok.injEq, Prod.mk.injEq] at hok
            obtain ⟨h1, h2, _h3⟩ := hok
            subst h1
            refine ⟨lex_mk_tok_wf tok false true done_ifs (by simp) (fun _ => ⟨rfl, hpre.2⟩), ?_⟩
            intro _
            exact ⟨c, r, h2.symm, hmc⟩
          · rw [if_neg hpre] at hok
            exact ih (tok ++ [c]) true done_ifs none line tk rest' line'
              (fun _ => by simp) hok
        · rw [if_neg hmc] at hok
          by_cases hmeta : meta = true
          · rw [if_pos hmeta] at hok
            simp only [Except.ok.injEq, Prod.mk.injEq] at hok
            obtain ⟨h1, _h2, _h3⟩ := hok
            subst h1
            refine ⟨lex_mk_tok_wf tok true false done_ifs (fun _ => hmt hmeta) (by simp), ?_⟩
            intro hp
            simp [lex_mk_tok] at hp
          · rw [if_neg hmeta] at hok
            by_cases hifs : isIFS c = true
            · rw [if_pos hifs] at hok
              by_cases hdi : done_ifs = false
              · rw [if_pos hdi] at hok
                exact ih tok meta done_ifs none _ tk rest' line' hmt hok
              · rw [if_neg hdi] at hok
                simp only [Except.ok.injEq, Prod.mk.injEq] at hok
                obtain ⟨h1, _h2, _h3⟩ := hok
                subst h1
                refine ⟨lex_mk_tok_wf tok meta false done_ifs hmt (by simp), ?_⟩
                intro hp
                simp [lex_mk_tok] at hp
            · rw [if_neg hifs] at hok
              by_cases hq : c = 39 ∨ c = 34
              · rw [if_pos hq] at hok
                exact ih tok meta true (some c) _ tk rest' line' hmt hok
              · rw [if_neg hq] at hok
                exact ih (tok ++ [c]) meta true none _ tk rest' line'
                  (fun hm => by simp) hok

/-- A scan already inside a metacharacter run never fails and returns a META
token. -/
theorem lex_raw_meta_start (r : List Nat) :
    ∀ (tok : List Nat) (done_ifs : Bool) (line : Nat), tok ≠ [] →
    ∃ tk rest' line', lex_raw tok true done_ifs none line r = .ok (tk, rest', line') ∧
      tk.meta = true := by
  induction r with
  | nil =>
    intro tok done_ifs line htok
    exact ⟨_, _, _, rfl, by simp [lex_mk_tok]⟩
  | cons c r ih =>
    intro tok done_ifs line htok
    simp only [lex_raw]
    by_cases hc0 : c = 0
    · rw [if_pos hc0]
      exact ⟨_, _, _, rfl, by simp [lex_mk_tok]⟩
    · rw [if_neg hc0]
      by_cases hmc : isMetaChar c = true
      · rw [if_pos hmc, if_neg (by simp)]
        exact ih (tok ++ [c]) done_ifs line (by simp)
      · rw [if_neg hmc, if_pos trivial]
        exact ⟨_, _, _, rfl, by simp [lex_mk_tok]⟩

/-- Scanning exhausted input produces the EOF token (`NULL` buffer). -/
theorem lex_raw_exhausted (rest : List Nat) (line : Nat)
    (h : rest = [] ∨ ∃ r', rest = 0 :: r') :
    ∃ rest' line', lex_raw [] false false none line rest
      = .ok ({ s := none, meta := false, premeta := false }, rest', line') := by
  rcases h with h | ⟨r', h⟩ <;> subst h
  · exact ⟨[], line, rfl⟩
  · refine ⟨0 :: r', line, ?_⟩
    simp [lex_raw, lex_mk_tok]

/-- What one successful `lex_pop_token` guarantees under the stack invariant:
the token is well-formed, the remaining stack is premeta-free and well-formed,
a PRE-META token leaves an empty stack with the input on its metacharacter,
and the invariant is preserved. -/
theorem lex_pop_token_spec (lex : Lex) (tok : LexTok) (lex' : Lex)
    (hinv : StackInv lex) (hok : lex_pop_token lex = .ok (tok, lex')) :
    TokWF tok ∧
    (∀ t ∈ lex'.tok_head, TokWF t ∧ t.premeta = false) ∧
    (tok.premeta = true → lex'.tok_head = [] ∧ restHeadMeta lex'.rest) ∧
    StackInv lex' := by
  rcases hstack : lex.tok_head with _ | ⟨t, ts⟩
  · -- fresh scan
    rcases hraw : lex_raw [] false false none lex.line lex.rest with e | ⟨tk, rest', line'⟩
    · simp only [lex_pop_token, hstack, hraw] at hok
      exact absurd hok (by simp)
    · simp only [lex_pop_token, hstack, hraw, Except.ok.injEq, Prod.mk.injEq] at hok
      obtain ⟨h1, h2⟩ := hok
      subst h1
      obtain ⟨hwf, hrm⟩ := lex_raw_spec lex.rest [] false false none lex.line tk rest' line'
        (by simp) hraw
      refine ⟨hwf, ?_, ?_, ?_, ?_⟩
      · intro t ht
        rw [← h2] at ht
        simp at ht
      · intro hp
        rw [← h2]
        exact ⟨rfl, hrm hp⟩
      · intro t ht
        rw [← h2] at ht
        simp at ht
      · intro t ht
        rw [← h2] at ht
        simp at ht
  · -- buffered token
    simp only [lex_pop_token, hstack, Except.ok.injEq, Prod.mk.injEq] at hok
    obtain ⟨h1, h2⟩ := hok
    subst h1
    have htwf : TokWF t := hinv.1 t (by rw [hstack]; exact List.mem_cons_self _ _)
    have hts : ∀ u ∈ ts, TokWF u ∧ u.premeta = false := by
      intro u hu
      refine ⟨hinv.1 u (by rw [hstack]; exact List.mem_cons_of_mem _ hu), ?_⟩
      by_contra hup
      have := hinv.2 u (by rw [hstack]; exact List.mem_cons_of_mem _ hu)
        (by revert hup; cases u.premeta <;> simp)
      rw [hstack] at this
      obtain ⟨heq, _⟩ := this
      have : ts = [] := by
        cases heq
        rfl
      rw [this] at hu
      simp at hu
    refine ⟨htwf, ?_, ?_, ?_, ?_⟩
    · intro u hu
      rw [← h2] at hu
      exact hts u hu
    · intro hp
      have := hinv.2 t (by rw [hstack]; exact List.mem_cons_self _ _) hp
      rw [hstack] at this
      obtain ⟨heq, hrm⟩ := this
      have hts0 : ts = [] := by cases heq; rfl
      rw [← h2, hts0]
      exact ⟨rfl, hrm⟩
    · intro u hu
      rw [← h2] at hu
      exact (hts u hu).1
    · intro u hu hup
      rw [← h2] at hu
      exact absurd (hts u hu).2 (by rw [hup]; simp)

/-- Pushing a well-formed token preserves the stack invariant, provided a
PRE-META token is only pushed on an empty stack with the input on its
metacharacter, and the receiving stack is premeta-free. -/
theorem lex_push_token_inv (lex : Lex) (t : LexTok)
    (hinv : StackInv lex) (hwf : TokWF t)
    (hpos : t.premeta = true → lex.tok_head = [])
    (hrest : t.premeta = true → restHeadMeta lex.rest)
    (hall : ∀ u ∈ lex.tok_head, u.premeta = false) :
    StackInv (lex_push_token lex t) := by
  constructor
  · intro u hu
    simp only [lex_push_token, List.mem_cons] at hu
    rcases hu with rfl | hu
    · exact hwf
    · exact hinv.1 u hu
  · intro u hu hup
    simp only [lex_push_token, List.mem_cons] at hu
    rcases hu with rfl | hu
    · have h0 := hpos hup
      simp only [lex_push_token, h0]
      exact ⟨trivial, hrest hup⟩
    · exact absurd (hall u hu) (by rw [hup]; simp)

theorem isMetaChar_vals {c : Nat} (h : isMetaChar c = true) :
    c = 124 ∨ c = 38 ∨ c = 59 ∨ c = 40 ∨ c = 41 ∨ c = 60 ∨ c = 62 := by
  simpa only [isMetaChar, METACHARS, List.mem_cons, List.not_mem_nil, or_false,
    decide_eq_true_eq] using h

theorem isMetaChar_ne_zero {c : Nat} (h : isMetaChar c = true) : c ≠ 0 := by
  rcases isMetaChar_vals h with h | h | h | h | h | h | h <;> omega

/-- Popping from an empty stack when the input cursor sits on a metacharacter
yields a META token. -/
theorem lex_pop_token_meta_head (lex : Lex) (hstack : lex.tok_head = [])
    (c : Nat) (r : List Nat) (hr : lex.rest = c :: r) (hmc : isMetaChar c = true)
    (tok : LexTok) (lex' : Lex) (hok : lex_pop_token lex = .ok (tok, lex')) :
    tok.meta = true := by
  obtain ⟨tk, rest', line', heq, hmeta⟩ :=
    lex_raw_meta_start r [c] false (if c = 10 then lex.line + 1 else lex.line) (by simp)
  have hraw : lex_raw [] false false none lex.line (c :: r) = .ok (tk, rest', line') := by
    simp only [lex_raw, if_neg (isMetaChar_ne_zero hmc), if_pos hmc]
    rw [if_neg (by simp)]
    -- a metacharacter is never a newline, so the line counter is untouched
    have hc10 : (if c = 10 then lex.line + 1 else lex.line) = lex.line := by
      have h10 : c ≠ 10 := by rcases isMetaChar_vals hmc with h | h | h | h | h | h | h <;> omega
      rw [if_neg h10]
    rw [hc10] at heq
    exact heq
  simp only [lex_pop_token, hstack, hr, hraw, Except.ok.injEq, Prod.mk.injEq] at hok
  obtain ⟨h1, _⟩ := hok
  rw [← h1]
  exact hmeta

/-- With the loop condition false (empty stack and exhausted input),
`lex_pop_token` returns the EOF token. -/
theorem lex_pop_token_exhausted (lex : Lex) (hstack : lex.tok_head = [])
    (hin : lex_has_input lex = false) :
    ∃ lex', lex_pop_token lex
      = .ok ({ s := none, meta := false, premeta := false }, lex') := by
  have hrest : lex.rest = [] ∨ ∃ r', lex.rest = 0 :: r' := by
    simp only [lex_has_input, hstack, List.isEmpty_nil, Bool.not_true, Bool.false_or] at hin
    rcases hr : lex.rest with _ | ⟨c, r⟩
    · exact Or.inl rfl
    · rw [hr] at hin
      simp only [decide_eq_false_iff_not, Decidable.not_not] at hin
      exact Or.inr ⟨r, by rw [hin]⟩
  obtain ⟨rest', line', hraw⟩ := lex_raw_exhausted lex.rest lex.line hrest
  exact ⟨{ rest := rest', line := line', tok_head := [] },
    by simp only [lex_pop_token, hstack, hraw]⟩

theorem GoodProcRes_err (e : LexErr) : GoodProcRes (.err e) :=
  ⟨fun k => by simp, fun pr lex' h => by simp at h⟩

theorem GoodProcRes_ub : GoodProcRes (POut.ub (α := LexProc × Lex)) :=
  ⟨fun k => by simp, fun pr lex' h => by simp at h⟩

theorem GoodProcRes_nofuel : GoodProcRes (POut.nofuel (α := LexProc × Lex)) :=
  ⟨fun k => by simp, fun pr lex' h => by simp at h⟩

theorem GoodProcRes_ok (pr : LexProc) (lex' : Lex) (h1 : StackInv lex')
    (h2 : lex_has_input lex' = false ∨ ∃ t ts, lex'.tok_head = t :: ts ∧ t.meta = true) :
    GoodProcRes (.ok (pr, lex')) := by
  refine ⟨fun k => by simp, fun pr2 lex2 h => ?_⟩
  simp only [POut.ok.injEq, Prod.mk.injEq] at h
  obtain ⟨_, h⟩ := h
  subst h
  exact ⟨h1, h2⟩

theorem PremetaInv_none (lex : Lex) : PremetaInv none lex :=
  fun pm h => by simp at h

/-- The redirection tail never panics, and a continue-result's lexer state is
the one left by the single `lex_pop_token` it performs. -/
theorem lex_pop_proc_redir_cases (p : LexProc) (lex : Lex) (op : List Nat) (tfd : Int) :
    (∃ e, lex_pop_proc_redir p lex op tfd = .err e) ∨
    (∃ p' tok2 lex2, lex_pop_proc_redir p lex op tfd = .ok (p', lex2) ∧
        lex_pop_token lex = .ok (tok2, lex2)) := by
  unfold lex_pop_proc_redir
  rcases hrt : lex_redir_type op with _ | rt
  · exact Or.inl ⟨_, rfl⟩
  · rcases hpop : lex_pop_token lex with e | ⟨tok2, lex2⟩
    · exact Or.inl ⟨_, rfl⟩
    · simp only []
      rcases hts : tok2.s with _ | buf2
      · exact Or.inl ⟨_, rfl⟩
      · simp only []
        by_cases hm : tok2.meta = true
        · rw [if_pos hm]
          exact Or.inl ⟨_, rfl⟩
        · rw [if_neg hm]
          split
          · rcases hat : atol_exact (cstr buf2) with _ | v
            · exact Or.inl ⟨_, rfl⟩
            · simp only []
              by_cases hv : v < 0
              · rw [if_pos hv]
                exact Or.inl ⟨_, rfl⟩
              · rw [if_neg hv]
                exact Or.inr ⟨_, tok2, lex2, rfl, rfl⟩
          · exact Or.inr ⟨_, tok2, lex2, rfl, rfl⟩

theorem lex_pop_proc_redir_spec (p : LexProc) (lex : Lex) (op : List Nat) (tfd : Int)
    (hinv : StackInv lex) :
    (∀ k, lex_pop_proc_redir p lex op tfd ≠ .bug k) ∧
    (∀ p' lex', lex_pop_proc_redir p lex op tfd = .ok (p', lex') → StackInv lex') := by
  rcases lex_pop_proc_redir_cases p lex op tfd with ⟨e, he⟩ | ⟨p', tok2, lex2, he, hpop⟩
  · rw [he]
    exact ⟨fun k => by simp, fun p2 l2 h => by simp at h⟩
  · rw [he]
    refine ⟨fun k => by simp, fun p2 l2 h => ?_⟩
    simp only [POut.ok.injEq, Prod.mk.injEq] at h
    obtain ⟨_, h⟩ := h
    subst h
    exact (lex_pop_token_spec lex tok2 lex2 hinv hpop).2.2.2

theorem bool_eq_false_of_ne_true {b : Bool} (h : ¬b = true) : b = false := by
  cases b
  · rfl
  · exact absurd rfl h

/-- Master lemma for claim C6: under the invariants, the process-building
loop never reaches a `panic*` and re-establishes the invariants. -/
theorem lex_pop_proc_go_spec : ∀ (fuel : Nat) (p : LexProc) (premeta : Option LexTok)
    (done_vars : Bool) (lex : Lex), StackInv lex → PremetaInv premeta lex →
    GoodProcRes (lex_pop_proc_go fuel p premeta done_vars lex) := by
  intro fuel
  induction fuel with
  | zero =>
    intro p premeta done_vars lex _ _
    exact GoodProcRes_nofuel
  | succ fuel ih =>
    intro p premeta done_vars lex hinv hpinv
    simp only [lex_pop_proc_go]
    by_cases hin : lex_has_input lex = false
    · rw [if_pos hin]
      exact GoodProcRes_ok p lex hinv (Or.inl hin)
    · rw [if_neg hin]
      rcases hpop : lex_pop_token lex with e | ⟨tok, lex1⟩
      · exact GoodProcRes_err e
      · simp only []
        obtain ⟨htwf, hall1, hpre3, hinv1⟩ := lex_pop_token_spec lex tok lex1 hinv hpop
        by_cases hm : tok.meta = true
        · rw [if_pos hm]
          obtain ⟨l, hs, hlne⟩ := htwf.1 hm
          have hsc : ¬(tok.s = none ∨ tok.s = some []) := by
            rw [hs]
            simp [hlne]
          rw [if_neg hsc]
          have hpm_f : tok.premeta = false := by
            cases hpv : tok.premeta
            · rfl
            · exact absurd hm (by rw [(htwf.2 hpv).1]; simp)
          -- pushing the meta token back preserves the invariant
          have hS1 : StackInv (lex_push_token lex1 tok) :=
            lex_push_token_inv lex1 tok hinv1 htwf
              (fun h => absurd h (by rw [hpm_f]; simp))
              (fun h => absurd h (by rw [hpm_f]; simp))
              (fun u hu => (hall1 u hu).2)
          by_cases hhead : (tok.s.getD []).head? = some 60 ∨ (tok.s.getD []).head? = some 62
          · rw [if_pos hhead]
            rcases premeta with _ | pm
            · -- no premeta: straight to the redirection tail
              obtain ⟨hnb, hok⟩ := lex_pop_proc_redir_spec p lex1 (cstr (tok.s.getD []))
                (if (tok.s.getD []).head? = some 62 then 1 else 0) hinv1
              rcases hred : lex_pop_proc_redir p lex1 (cstr (tok.s.getD []))
                  (if (tok.s.getD []).head? = some 62 then 1 else 0) with
                ⟨p', lex'⟩ | e | k | _ | _
              · exact ih p' none done_vars lex' (hok p' lex' hred) (PremetaInv_none lex')
              · exact GoodProcRes_err e
              · exact absurd hred (hnb k)
              · exact GoodProcRes_ub
              · exact GoodProcRes_nofuel
            · -- buffered premeta token
              simp only []
              obtain ⟨hpmm, hpmp, ⟨pl, hpls, hplne⟩, hstk0, hrhm⟩ := hpinv pm rfl
              rw [hpls]
              -- the double push-back re-establishes the invariant
              have hS2 : StackInv (lex_push_token (lex_push_token lex1 tok) pm) := by
                refine lex_push_token_inv _ pm hS1
                  ⟨fun h => absurd h (by rw [hpmm]; simp),
                   fun h => absurd h (by rw [hpmp]; simp)⟩
                  (fun h => absurd h (by rw [hpmp]; simp))
                  (fun h => absurd h (by rw [hpmp]; simp))
                  ?_
                intro u hu
                simp only [lex_push_token, List.mem_cons] at hu
                rcases hu with rfl | hu
                · exact hpm_f
                · exact (hall1 u hu).2
              have hpush : GoodProcRes (lex_pop_proc_go fuel p none done_vars
                  (lex_push_token (lex_push_token lex1 tok) pm)) :=
                ih p none done_vars _ hS2 (PremetaInv_none _)
              simp only []
              rcases hat : atol_exact (cstr pl) with _ | v
              · exact hpush
              · simp only []
                by_cases hv : v < 0
                · rw [if_pos hv]
                  exact hpush
                · rw [if_neg hv]
                  obtain ⟨hnb, hok⟩ := lex_pop_proc_redir_spec p lex1 (cstr (tok.s.getD []))
                    v hinv1
                  rcases hred : lex_pop_proc_redir p lex1 (cstr (tok.s.getD [])) v with
                    ⟨p', lex'⟩ | e | k | _ | _
                  · exact ih p' none done_vars lex' (hok p' lex' hred) (PremetaInv_none lex')
                  · exact GoodProcRes_err e
                  · exact absurd hred (hnb k)
                  · exact GoodProcRes_ub
                  · exact GoodProcRes_nofuel
          · rw [if_neg hhead]
            rcases premeta with _ | pm
            · -- break: push the unknown metacharacter back
              exact GoodProcRes_ok p (lex_push_token lex1 tok) hS1
                (Or.inr ⟨tok, lex1.tok_head, rfl, hm⟩)
            · -- push both back and continue
              obtain ⟨hpmm, hpmp, ⟨pl, hpls, hplne⟩, hstk0, hrhm⟩ := hpinv pm rfl
              have hS2 : StackInv (lex_push_token (lex_push_token lex1 tok) pm) := by
                refine lex_push_token_inv _ pm hS1
                  ⟨fun h => absurd h (by rw [hpmm]; simp),
                   fun h => absurd h (by rw [hpmp]; simp)⟩
                  (fun h => absurd h (by rw [hpmp]; simp))
                  (fun h => absurd h (by rw [hpmp]; simp))
                  ?_
                intro u hu
                simp only [lex_push_token, List.mem_cons] at hu
                rcases hu with rfl | hu
                · exact hpm_f
                · exact (hall1 u hu).2
              exact ih p none done_vars _ hS2 (PremetaInv_none _)
        · rw [if_neg hm]
          -- a non-META token while a premeta token is buffered is impossible:
          -- the buffered-premeta invariant puts the cursor on a metacharacter
          have hmetapop : ∀ pm, premeta = some pm → False := by
            intro pm hpmeq
            obtain ⟨_, _, _, hstk0, c, r, hr, hmc⟩ := hpinv pm hpmeq
            exact hm (lex_pop_token_meta_head lex hstk0 c r hr hmc tok lex1 hpop)
          by_cases hp : tok.premeta = true
          · rw [if_pos hp]
            rcases premeta with _ | pm
            · exact ih p (some { tok with premeta := false }) done_vars lex1 hinv1
                (by
                  intro pm' heq
                  simp only [Option.some.injEq] at heq
                  subst heq
                  obtain ⟨hmf, l2, hs2, hn2⟩ := htwf.2 hp
                  exact ⟨hmf, rfl, ⟨l2, hs2, hn2⟩, hpre3 hp⟩)
            · exact (hmetapop pm rfl).elim
          · rw [if_neg hp]
            rcases premeta with _ | pm
            · simp only []
              rcases hts : tok.s with _ | buf
              · exact ih p none done_vars lex1 hinv1 (PremetaInv_none lex1)
              · simp only []
                rcases hpw : proc_add_word p done_vars (cstr buf) with ⟨p', dv'⟩
                exact ih p' none dv' lex1 hinv1 (PremetaInv_none lex1)
            · exact (hmetapop pm rfl).elim

theorem stack_empty_of_no_input (lex : Lex) (h : lex_has_input lex = false) :
    lex.tok_head = [] := by
  simp only [lex_has_input, Bool.or_eq_false_iff, Bool.not_eq_false'] at h
  exact List.isEmpty_iff.1 h.1

/-- The pipeline loop never reaches a `panic*` under the stack invariant. -/
theorem lex_pop_pipeline_go_spec : ∀ (fuel : Nat) (acc : List LexProc) (lex : Lex),
    StackInv lex → ∀ k, lex_pop_pipeline_go fuel acc lex ≠ .bug k := by
  intro fuel
  induction fuel with
  | zero =>
    intro acc lex _ k
    simp [lex_pop_pipeline_go]
  | succ fuel ih =>
    intro acc lex hinv k
    simp only [lex_pop_pipeline_go, lex_pop_proc]
    have hgo := lex_pop_proc_go_spec (fuel + 1) { argv := [], envp := [], redirs := [] }
      none false lex hinv (PremetaInv_none lex)
    rcases hproc : lex_pop_proc_go (fuel + 1) { argv := [], envp := [], redirs := [] }
        none false lex with ⟨proc, lex1⟩ | e | k' | _ | _
    · obtain ⟨hinv1, hexit⟩ := hgo.2 proc lex1 hproc
      simp only []
      rcases hpop2 : lex_pop_token lex1 with e | ⟨tok, lex2⟩
      · simp
      · simp only []
        obtain ⟨htwf2, hall2, hpre2, hinv2⟩ := lex_pop_token_spec lex1 tok lex2 hinv1 hpop2
        rcases hts : tok.s with _ | buf
        · simp
        · have hmeta : tok.meta = true := by
            rcases hexit with hex | ⟨t, ts, hst, htm⟩
            · obtain ⟨lexe, hpe⟩ := lex_pop_token_exhausted lex1
                (stack_empty_of_no_input lex1 hex) hex
              rw [hpop2] at hpe
              simp only [Except.ok.injEq, Prod.mk.injEq] at hpe
              obtain ⟨hteq, _⟩ := hpe
              rw [hteq] at hts
              simp at hts
            · simp only [lex_pop_token, hst, Except.ok.injEq, Prod.mk.injEq] at hpop2
              obtain ⟨hteq, _⟩ := hpop2
              rw [← hteq]
              exact htm
          simp only []
          rw [if_neg (by rw [hmeta]; simp)]
          by_cases hpipe : cstr buf ≠ [124]
          · rw [if_pos hpipe]
            simp
          · rw [if_neg hpipe]
            rcases hpop3 : lex_pop_token lex2 with e | ⟨tok3, lex3⟩
            · simp
            · simp only []
              obtain ⟨htwf3, hall3, hpre3, hinv3⟩ :=
                lex_pop_token_spec lex2 tok3 lex3 hinv2 hpop3
              rcases hts3 : tok3.s with _ | buf3
              · simp
              · exact ih (acc ++ [proc]) (lex_push_token lex3 tok3)
                  (lex_push_token_inv lex3 tok3 hinv3 htwf3
                    (fun h => (hpre3 h).1) (fun h => (hpre3 h).2)
                    (fun u hu => (hall3 u hu).2)) k
    · simp
    · exact absurd hproc (hgo.1 k')
    · simp
    · simp

theorem StackInv_init (input : List Nat) : StackInv (lex_init input) :=
  ⟨fun t ht => by simp [lex_init] at ht, fun t ht => by simp [lex_init] at ht⟩

/-- Claim C6: for every input string and every loop bound, the full pipeline
parse never fires the `metachar tok empty` panic (a META token with an empty
or absent buffer) nor the double-PRE-META panic: those `panic1`/`panic2`
branches in `lex_pop_proc` are unreachable. -/
theorem claim_C6 (input : List Nat) (fuel : Nat) :
    lex_pop_pipeline fuel (lex_init input) ≠ .bug .metacharTokEmpty ∧
    lex_pop_pipeline fuel (lex_init input) ≠ .bug .doublePremeta := by
  have h := lex_pop_pipeline_go_spec fuel [] (lex_init input) (StackInv_init input)
  exact ⟨h .metacharTokEmpty, h .doublePremeta⟩

/-! ## C7/C8: editor claims.  First a small theory of `u8valid`. -/

theorem u8valid_go_split : ∀ (r : List Nat) (p : Nat), u8valid_go p r = true →
    p ≤ r.length ∧ (r.take p).all isCont = true ∧ u8valid (r.drop p) = true := by
  intro r
  induction r with
  | nil =>
    intro p h
    simp only [u8valid_go, decide_eq_true_eq] at h
    subst h
    exact ⟨by simp, by simp, by simp [u8valid, u8valid_go]⟩
  | cons c r' ih =>
    intro p h
    match p with
    | 0 => exact ⟨by simp, by simp, h⟩
    | q + 1 =>
      simp only [u8valid_go] at h
      by_cases hc : isCont c = true
      · rw [if_pos hc] at h
        obtain ⟨h1, h2, h3⟩ := ih q h
        refine ⟨by simp; omega, ?_, by simpa using h3⟩
        simp only [List.take_succ_cons, List.all_cons, hc, Bool.true_and]
        exact h2
      · rw [if_neg hc] at h
        simp at h

theorem u8valid_go_join : ∀ (r rest : List Nat), r.all isCont = true →
    u8valid_go r.length (r ++ rest) = u8valid rest := by
  intro r
  induction r with
  | nil => intro rest _; rfl
  | cons c r' ih =>
    intro rest h
    simp only [List.all_cons, Bool.and_eq_true] at h
    simp only [List.length_cons, List.cons_append, u8valid_go, if_pos h.1]
    exact ih rest h.2

theorem u8valid_cons_decomp (c : Nat) (r : List Nat) (h : u8valid (c :: r) = true) :
    1 ≤ utf8_size c ∧ (utf8_size c).toNat - 1 ≤ r.length ∧
    (r.take ((utf8_size c).toNat - 1)).all isCont = true ∧
    u8valid (r.drop ((utf8_size c).toNat - 1)) = true := by
  simp only [u8valid, u8valid_go] at h
  by_cases hs : 1 ≤ utf8_size c
  · rw [if_pos hs] at h
    obtain ⟨h1, h2, h3⟩ := u8valid_go_split r _ h
    exact ⟨hs, h1, h2, h3⟩
  · rw [if_neg hs] at h
    simp at h

theorem isCp_append_u8valid {cp rest : List Nat} (h1 : isCp cp = true)
    (h2 : u8valid rest = true) : u8valid (cp ++ rest) = true := by
  match cp, h1 with
  | c :: r, h1 =>
    simp only [isCp, Bool.and_eq_true, decide_eq_true_eq] at h1
    obtain ⟨⟨hs, hlen⟩, hcont⟩ := h1
    simp only [List.cons_append, u8valid, u8valid_go, if_pos hs, List.append_eq]
    have heq : (utf8_size c).toNat - 1 = r.length := by omega
    rw [heq, u8valid_go_join r rest hcont]
    exact h2

theorem isCp_u8valid {cp : List Nat} (h : isCp cp = true) : u8valid cp = true := by
  have := isCp_append_u8valid h (show u8valid [] = true by rfl)
  simpa using this

theorem isCp_length {cp : List Nat} (h : isCp cp = true) :
    1 ≤ cp.length ∧ cp.length ≤ 4 := by
  match cp, h with
  | c :: r, h =>
    simp only [isCp, Bool.and_eq_true, decide_eq_true_eq] at h
    obtain ⟨⟨hs, hlen⟩, _⟩ := h
    have h4 := utf8_size_le_four c
    simp only [List.length_cons]
    omega

/-- A valid byte string is a concatenation of well-formed code points. -/
theorem u8valid_iff_cps (l : List Nat) : u8valid l = true ↔
    ∃ cps : List (List Nat), (∀ cp ∈ cps, isCp cp = true) ∧ l = cps.flatten := by
  constructor
  · intro h
    suffices H : ∀ (n : Nat) (l : List Nat), l.length ≤ n → u8valid l = true →
        ∃ cps : List (List Nat), (∀ cp ∈ cps, isCp cp = true) ∧ l = cps.flatten by
      exact H l.length l le_rfl h
    intro n
    induction n with
    | zero =>
      intro l hl _
      match l, hl with
      | [], _ => exact ⟨[], by simp, by simp⟩
    | succ n ihn =>
      intro l hl h
      match l with
      | [] => exact ⟨[], by simp, by simp⟩
      | c :: r =>
        obtain ⟨hs, hle, hcont, hrest⟩ := u8valid_cons_decomp c r h
        have hlt : (r.drop ((utf8_size c).toNat - 1)).length ≤ n := by
          simp only [List.length_cons] at hl
          simp only [List.length_drop]
          omega
        obtain ⟨cps', hall', heq'⟩ := ihn _ hlt hrest
        refine ⟨(c :: r.take ((utf8_size c).toNat - 1)) :: cps', ?_, ?_⟩
        · intro cp hcp
          rcases List.mem_cons.1 hcp with rfl | hcp
          · simp only [isCp, Bool.and_eq_true, decide_eq_true_eq]
            refine ⟨⟨hs, ?_⟩, hcont⟩
            rw [List.length_take]
            omega
          · exact hall' cp hcp
        · simp only [List.flatten_cons, List.cons_append]
          rw [← heq', List.take_append_drop]
  · rintro ⟨cps, hall, rfl⟩
    induction cps with
    | nil => rfl
    | cons cp cps ih =>
      simp only [List.flatten_cons]
      exact isCp_append_u8valid (hall cp (by simp))
        (ih (fun c hc => hall c (List.mem_cons_of_mem _ hc)))

theorem u8valid_append {u v : List Nat} (hu : u8valid u = true) (hv : u8valid v = true) :
    u8valid (u ++ v) = true := by
  obtain ⟨cps1, h1, rfl⟩ := (u8valid_iff_cps u).1 hu
  obtain ⟨cps2, h2, rfl⟩ := (u8valid_iff_cps v).1 hv
  refine (u8valid_iff_cps _).2 ⟨cps1 ++ cps2, ?_, by simp⟩
  intro cp hcp
  rcases List.mem_append.1 hcp with h | h
  · exact h1 cp h
  · exact h2 cp h

/-- On a non-empty valid string, `utf8_rsize` is the byte count of the last
code point: it is in `1..4`, bounded by the length, removing it keeps the
string valid, and the removed suffix is one well-formed code point. -/
theorem u8valid_rsize_last {u : List Nat} (hu : u8valid u = true) (hne : u ≠ []) :
    1 ≤ utf8_rsize u ∧ utf8_rsize u ≤ 4 ∧ utf8_rsize u ≤ u.length ∧
    u8valid (u.take (u.length - utf8_rsize u)) = true ∧
    isCp (u.drop (u.length - utf8_rsize u)) = true := by
  obtain ⟨cps, hall, rfl⟩ := (u8valid_iff_cps u).1 hu
  have hcne : cps ≠ [] := by
    rintro rfl
    exact hne rfl
  obtain ⟨cps0, cp, rfl⟩ : ∃ cps0 cp, cps = cps0 ++ [cp] :=
    ⟨cps.dropLast, cps.getLast hcne, (List.dropLast_append_getLast hcne).symm⟩
  have hjoin : (cps0 ++ [cp]).flatten = cps0.flatten ++ cp := by
    simp
  rw [hjoin]
  have hcp : isCp cp = true := hall cp (by simp)
  have hrs : utf8_rsize (cps0.flatten ++ cp) = cp.length := utf8_rsize_concat _ cp hcp
  have hlen := isCp_length hcp
  have hlen2 : (cps0.flatten ++ cp).length = cps0.flatten.length + cp.length := by simp
  have hidx : (cps0.flatten ++ cp).length - utf8_rsize (cps0.flatten ++ cp) = cps0.flatten.length := by
    rw [hrs]
    omega
  refine ⟨by omega, by omega, by omega, ?_, ?_⟩
  · rw [hidx, List.take_left]
    refine (u8valid_iff_cps _).2 ⟨cps0, fun c hc => hall c (by simp [hc]), rfl⟩
  · rw [hidx, List.drop_left]
    exact hcp

/-! ### Editor state lemmas -/

theorem prompt_materialize_row (st : Prompt) :
    (prompt_materialize st).prmt_cur_row = st.prmt_cur_row := by
  unfold prompt_materialize
  split
  · rfl
  · split
    · split <;> rfl
    · rfl

theorem prompt_materialize_col (st : Prompt) :
    (prompt_materialize st).prmt_cur_col = st.prmt_cur_col := by
  unfold prompt_materialize
  split
  · rfl
  · split
    · split <;> rfl
    · rfl

theorem prompt_materialize_hist (st : Prompt) :
    (prompt_materialize st).hist = st.hist := by
  unfold prompt_materialize
  split
  · rfl
  · split
    · split <;> rfl
    · rfl

theorem prompt_get_eq_line (st : Prompt) (hrow : st.prmt_cur_row < 1 + HIST_MAX)
    (l : List Nat) (hl : st.prmt_line st.prmt_cur_row = some l) :
    prompt_get st = some l := by
  simp only [prompt_get, __prompt_get, hl]
  rw [if_neg (by omega)]

theorem prompt_get_of_line_none (st : Prompt) (hrow : st.prmt_cur_row < 1 + HIST_MAX)
    (hl : st.prmt_line st.prmt_cur_row = none) :
    prompt_get st
      = (if st.prmt_cur_row ≠ 0 then history_get st.hist (st.prmt_cur_row - 1) else none) := by
  simp only [prompt_get, __prompt_get, hl]
  rw [if_neg (by omega)]

/-- The lazy copy step: the materialized state's current-row buffer reads
back as the effective current line, and the effective line is unchanged. -/
theorem prompt_materialize_line (st : Prompt) (hrow : st.prmt_cur_row < 1 + HIST_MAX) :
    ((prompt_materialize st).prmt_line st.prmt_cur_row).getD [] = (prompt_get st).getD [] ∧
    prompt_get (prompt_materialize st) = prompt_get st := by
  unfold prompt_materialize
  rcases hl : st.prmt_line st.prmt_cur_row with _ | l0
  · simp only []
    by_cases hr0 : st.prmt_cur_row = 0
    · rw [if_neg (not_not_intro hr0)]
      rw [prompt_get_of_line_none st hrow hl, if_neg (not_not_intro hr0), hl]
      exact ⟨rfl, rfl⟩
    · rw [if_pos hr0]
      rcases hh : history_get st.hist (st.prmt_cur_row - 1) with _ | h
      · simp only []
        rw [prompt_get_of_line_none st hrow hl, if_pos hr0, hh, hl]
        exact ⟨rfl, trivial⟩
      · simp only []
        constructor
        · simp only [Function.update_same]
          rw [prompt_get_of_line_none st hrow hl, if_pos hr0, hh]
        · rw [prompt_get_eq_line _ (by simpa using hrow) h (by simp),
              prompt_get_of_line_none st hrow hl, if_pos hr0, hh]
  · simp only []
    rw [prompt_get_eq_line st hrow l0 hl, hl]
    exact ⟨rfl, trivial⟩

theorem prompt_get_update_line (p : Prompt) (line' : List Nat)
    (hrow : p.prmt_cur_row < 1 + HIST_MAX) :
    prompt_get { p with
        prmt_line := Function.update p.prmt_line p.prmt_cur_row (some line') }
      = some line' := by
  simp only [prompt_get, __prompt_get, Function.update_same]
  rw [if_neg (by omega)]

theorem prompt_get_mk (h : Hist) (f : Nat → Option (List Nat)) (r c : Nat) (l : List Nat)
    (hr : r < 1 + HIST_MAX) :
    prompt_get { hist := h, prmt_line := Function.update f r (some l),
                 prmt_cur_row := r, prmt_cur_col := c } = some l := by
  simp only [prompt_get, __prompt_get, Function.update_same]
  rw [if_neg (by omega)]

/-- Inserting a well-formed byte sequence at the cursor preserves editor
well-formedness. -/
theorem __prompt_output_line_wf (st : Prompt) (s : List Nat) (st' : Prompt)
    (hwf : PromptWF st) (hcp : u8valid s = true)
    (hok : __prompt_output_line st s = .ok st') : PromptWF st' := by
  obtain ⟨hrow, hcol, hpre, hsuf⟩ := hwf
  unfold __prompt_output_line at hok
  rcases hm : utf8_strnlen s with _ | moves
  · rw [hm] at hok
    simp at hok
  · rw [hm] at hok
    simp only [] at hok
    by_cases hm0 : moves = 0
    · rw [if_pos hm0] at hok
      simp at hok
    · rw [if_neg hm0] at hok
      rw [prompt_materialize_row st, prompt_materialize_col st,
          (prompt_materialize_line st hrow).1] at hok
      rw [if_neg (by omega : ¬((prompt_get st).getD []).length < st.prmt_cur_col)] at hok
      simp only [Except.ok.injEq] at hok
      subst hok
      have h1 : ((((prompt_get st).getD []).take st.prmt_cur_col ++ s)).length
          = st.prmt_cur_col + s.length := by
        simp only [List.length_append, List.length_take]
        omega
      have hget := prompt_get_mk (prompt_materialize st).hist
          (prompt_materialize st).prmt_line st.prmt_cur_row (st.prmt_cur_col + s.length)
          (((prompt_get st).getD []).take st.prmt_cur_col ++ s
            ++ ((prompt_get st).getD []).drop st.prmt_cur_col) hrow
      refine ⟨hrow, ?_, ?_, ?_⟩
      · rw [hget]
        simp only [Option.getD_some, List.length_append, List.length_take, List.length_drop]
        omega
      · rw [hget]
        simp only [Option.getD_some]
        rw [List.take_left' h1]
        exact u8valid_append hpre hcp
      · rw [hget]
        simp only [Option.getD_some]
        rw [List.drop_left' h1]
        exact hsuf

theorem prompt_get_set_col (p : Prompt) (c : Nat) :
    prompt_get { p with prmt_cur_col := c } = prompt_get p := rfl

/-- Moving the cursor backward by one code point preserves editor
well-formedness. -/
theorem __prompt_output_cursor_backward_wf (st st' : Prompt)
    (hwf : PromptWF st)
    (hok : __prompt_output_cursor_backward st = .ok st') : PromptWF st' := by
  obtain ⟨hrow, hcol, hpre, hsuf⟩ := hwf
  unfold __prompt_output_cursor_backward at hok
  by_cases hc0 : st.prmt_cur_col = 0
  · rw [if_pos hc0] at hok
    simp only [Except.ok.injEq] at hok
    subst hok
    exact ⟨hrow, hcol, hpre, hsuf⟩
  · rw [if_neg hc0] at hok
    simp only [] at hok
    rw [if_neg (by omega : ¬((prompt_get st).getD []).length < st.prmt_cur_col)] at hok
    have hne : ((prompt_get st).getD []).take st.prmt_cur_col ≠ [] := by
      intro h
      have := congrArg List.length h
      rw [List.length_take] at this
      simp only [List.length_nil] at this
      omega
    obtain ⟨h1, _h4, hle, hpre2, hcp2⟩ := u8valid_rsize_last hpre hne
    have hlen : (((prompt_get st).getD []).take st.prmt_cur_col).length = st.prmt_cur_col := by
      rw [List.length_take]
      omega
    rw [hlen] at hle hpre2 hcp2
    rw [if_neg (by omega :
      ¬utf8_rsize (((prompt_get st).getD []).take st.prmt_cur_col) = 0)] at hok
    rw [if_neg (by omega : ¬st.prmt_cur_col
      < utf8_rsize (((prompt_get st).getD []).take st.prmt_cur_col))] at hok
    simp only [Except.ok.injEq] at hok
    subst hok
    refine ⟨hrow, ?_, ?_, ?_⟩
    · show st.prmt_cur_col - utf8_rsize (((prompt_get st).getD []).take st.prmt_cur_col)
        ≤ ((prompt_get st).getD []).length
      omega
    · show u8valid (((prompt_get st).getD []).take (st.prmt_cur_col
        - utf8_rsize (((prompt_get st).getD []).take st.prmt_cur_col))) = true
      rw [List.take_take] at hpre2
      have hmin : (st.prmt_cur_col
            - utf8_rsize (((prompt_get st).getD []).take st.prmt_cur_col))
          ⊓ st.prmt_cur_col
          = st.prmt_cur_col
            - utf8_rsize (((prompt_get st).getD []).take st.prmt_cur_col) := by
        omega
      rw [hmin] at hpre2
      exact hpre2
    · show u8valid (((prompt_get st).getD []).drop (st.prmt_cur_col
        - utf8_rsize (((prompt_get st).getD []).take st.prmt_cur_col))) = true
      have hx : List.drop (st.prmt_cur_col
            - utf8_rsize (((prompt_get st).getD []).take st.prmt_cur_col))
            (((prompt_get st).getD []).take st.prmt_cur_col)
          ++ ((prompt_get st).getD []).drop st.prmt_cur_col
          = ((prompt_get st).getD []).drop (st.prmt_cur_col
            - utf8_rsize (((prompt_get st).getD []).take st.prmt_cur_col)) := by
        rw [List.drop_take]
        rw [show ((prompt_get st).getD []).drop st.prmt_cur_col
            = List.drop (utf8_rsize (((prompt_get st).getD []).take st.prmt_cur_col))
              (((prompt_get st).getD []).drop (st.prmt_cur_col
                - utf8_rsize (((prompt_get st).getD []).take st.prmt_cur_col)))
          from by
            rw [List.drop_drop]
            congr 1
            omega]
        rw [show st.prmt_cur_col - (st.prmt_cur_col
              - utf8_rsize (((prompt_get st).getD []).take st.prmt_cur_col))
            = utf8_rsize (((prompt_get st).getD []).take st.prmt_cur_col)
          from by omega]
        exact List.take_append_drop _ _
      rw [← hx]
      exact isCp_append_u8valid hcp2 hsuf

/-- Moving the cursor forward by one code point preserves editor
well-formedness. -/
theorem __prompt_output_cursor_forward_wf (st st' : Prompt)
    (hwf : PromptWF st)
    (hok : __prompt_output_cursor_forward st = .ok st') : PromptWF st' := by
  obtain ⟨hrow, hcol, hpre, hsuf⟩ := hwf
  unfold __prompt_output_cursor_forward at hok
  by_cases hend : ((prompt_get st).getD []).length ≤ st.prmt_cur_col
  · rw [if_pos hend] at hok
    simp only [Except.ok.injEq] at hok
    subst hok
    exact ⟨hrow, hcol, hpre, hsuf⟩
  · rw [if_neg hend] at hok
    simp only [] at hok
    have hlt : st.prmt_cur_col < ((prompt_get st).getD []).length := by omega
    have hdrop : ((prompt_get st).getD []).drop st.prmt_cur_col
        = ((prompt_get st).getD []).getD st.prmt_cur_col 0
          :: ((prompt_get st).getD []).drop (st.prmt_cur_col + 1) := by
      rw [List.getD_eq_getElem _ 0 hlt]
      exact List.drop_eq_getElem_cons hlt
    rw [hdrop] at hsuf
    obtain ⟨h1, hle, hcont, hrest⟩ := u8valid_cons_decomp _ _ hsuf
    have hrl : (((prompt_get st).getD []).drop (st.prmt_cur_col + 1)).length
        = ((prompt_get st).getD []).length - (st.prmt_cur_col + 1) := List.length_drop _ _
    rw [if_neg (by omega :
      ¬(utf8_size (((prompt_get st).getD []).getD st.prmt_cur_col 0) = 0
        ∨ utf8_size (((prompt_get st).getD []).getD st.prmt_cur_col 0) = -1))] at hok
    rw [if_neg (by omega : ¬((prompt_get st).getD []).length < st.prmt_cur_col
        + (utf8_size (((prompt_get st).getD []).getD st.prmt_cur_col 0)).toNat)] at hok
    simp only [Except.ok.injEq] at hok
    subst hok
    refine ⟨hrow, ?_, ?_, ?_⟩
    · show st.prmt_cur_col
          + (utf8_size (((prompt_get st).getD []).getD st.prmt_cur_col 0)).toNat
        ≤ ((prompt_get st).getD []).length
      omega
    · show u8valid (((prompt_get st).getD []).take (st.prmt_cur_col
        + (utf8_size (((prompt_get st).getD []).getD st.prmt_cur_col 0)).toNat)) = true
      rw [List.take_add]
      refine u8valid_append hpre (isCp_u8valid ?_)
      rw [hdrop]
      rw [show (utf8_size (((prompt_get st).getD []).getD st.prmt_cur_col 0)).toNat
          = ((utf8_size (((prompt_get st).getD []).getD st.prmt_cur_col 0)).toNat - 1) + 1
        from by omega]
      rw [List.take_succ_cons]
      simp only [isCp, Bool.and_eq_true, decide_eq_true_eq]
      refine ⟨⟨h1, ?_⟩, hcont⟩
      rw [List.length_take]
      omega
    · show u8valid (((prompt_get st).getD []).drop (st.prmt_cur_col
        + (utf8_size (((prompt_get st).getD []).getD st.prmt_cur_col 0)).toNat)) = true
      rw [show st.prmt_cur_col
            + (utf8_size (((prompt_get st).getD []).getD st.prmt_cur_col 0)).toNat
          = (st.prmt_cur_col + 1)
            + ((utf8_size (((prompt_get st).getD []).getD st.prmt_cur_col 0)).toNat - 1)
        from by omega]
      rw [← List.drop_drop]
      exact hrest

/-- Deleting the code point before the cursor preserves editor
well-formedness. -/
theorem __prompt_output_backspace_line_wf (st st' : Prompt)
    (hwf : PromptWF st)
    (hok : __prompt_output_backspace_line st = .ok st') : PromptWF st' := by
  obtain ⟨hrow, hcol, hpre, hsuf⟩ := hwf
  unfold __prompt_output_backspace_line at hok
  by_cases hc0 : st.prmt_cur_col = 0
  · rw [if_pos hc0] at hok
    simp only [Except.ok.injEq] at hok
    subst hok
    exact ⟨hrow, hcol, hpre, hsuf⟩
  · rw [if_neg hc0] at hok
    simp only [] at hok
    rw [prompt_materialize_row st, prompt_materialize_col st] at hok
    rcases hline : (prompt_materialize st).prmt_line st.prmt_cur_row with _ | curr
    · rw [hline] at hok
      simp at hok
    · rw [hline] at hok
      simp only [] at hok
      have hcurr : curr = (prompt_get st).getD [] := by
        have h := (prompt_materialize_line st hrow).1
        rw [hline] at h
        simpa using h
      subst hcurr
      rw [if_neg (by omega : ¬((prompt_get st).getD []).length < st.prmt_cur_col)] at hok
      have hne : ((prompt_get st).getD []).take st.prmt_cur_col ≠ [] := by
        intro h
        have := congrArg List.length h
        rw [List.length_take] at this
        simp only [List.length_nil] at this
        omega
      obtain ⟨h1, _h4, hle, hpre2, hcp2⟩ := u8valid_rsize_last hpre hne
      have hlen : (((prompt_get st).getD []).take st.prmt_cur_col).length
          = st.prmt_cur_col := by
        rw [List.length_take]
        omega
      rw [hlen] at hle hpre2
      rw [if_neg (by omega :
        ¬utf8_rsize (((prompt_get st).getD []).take st.prmt_cur_col) = 0)] at hok
      rw [if_neg (by omega : ¬st.prmt_cur_col
        < utf8_rsize (((prompt_get st).getD []).take st.prmt_cur_col))] at hok
      simp only [Except.ok.injEq] at hok
      subst hok
      have h1len : (((prompt_get st).getD []).take (st.prmt_cur_col
            - utf8_rsize (((prompt_get st).getD []).take st.prmt_cur_col))).length
          = st.prmt_cur_col
            - utf8_rsize (((prompt_get st).getD []).take st.prmt_cur_col) := by
        rw [List.length_take]
        omega
      have hget := prompt_get_mk (prompt_materialize st).hist
          (prompt_materialize st).prmt_line st.prmt_cur_row
          (st.prmt_cur_col - utf8_rsize (((prompt_get st).getD []).take st.prmt_cur_col))
          (((prompt_get st).getD []).take (st.prmt_cur_col
              - utf8_rsize (((prompt_get st).getD []).take st.prmt_cur_col))
            ++ ((prompt_get st).getD []).drop st.prmt_cur_col) hrow
      refine ⟨hrow, ?_, ?_, ?_⟩
      · rw [hget]
        simp only [Option.getD_some, List.length_append, List.length_take, List.length_drop]
        omega
      · rw [hget]
        simp only [Option.getD_some]
        rw [List.take_left' h1len]
        rw [List.take_take] at hpre2
        rw [show (st.prmt_cur_col
              - utf8_rsize (((prompt_get st).getD []).take st.prmt_cur_col))
              ⊓ st.prmt_cur_col
            = st.prmt_cur_col
              - utf8_rsize (((prompt_get st).getD []).take st.prmt_cur_col)
          from by omega] at hpre2
        exact hpre2
      · rw [hget]
        simp only [Option.getD_some]
        rw [List.drop_left' h1len]
        exact hsuf

/-- Deleting the code point at the cursor preserves editor well-formedness. -/
theorem __prompt_output_del_wf (st st' : Prompt)
    (hwf : PromptWF st)
    (hok : __prompt_output_del st = .ok st') : PromptWF st' := by
  obtain ⟨hrow, hcol, hpre, hsuf⟩ := hwf
  unfold __prompt_output_del at hok
  simp only [] at hok
  by_cases hend : ((prompt_get st).getD []).length ≤ st.prmt_cur_col
  · rw [if_pos hend] at hok
    simp only [Except.ok.injEq] at hok
    subst hok
    exact ⟨hrow, hcol, hpre, hsuf⟩
  · rw [if_neg hend] at hok
    rw [prompt_materialize_row st, prompt_materialize_col st] at hok
    rcases hline : (prompt_materialize st).prmt_line st.prmt_cur_row with _ | curr
    · rw [hline] at hok
      simp at hok
    · rw [hline] at hok
      simp only [] at hok
      have hcurr : curr = (prompt_get st).getD [] := by
        have h := (prompt_materialize_line st hrow).1
        rw [hline] at h
        simpa using h
      subst hcurr
      have hlt : st.prmt_cur_col < ((prompt_get st).getD []).length := by omega
      have hdrop : ((prompt_get st).getD []).drop st.prmt_cur_col
          = ((prompt_get st).getD []).getD st.prmt_cur_col 0
            :: ((prompt_get st).getD []).drop (st.prmt_cur_col + 1) := by
        rw [List.getD_eq_getElem _ 0 hlt]
        exact List.drop_eq_getElem_cons hlt
      rw [hdrop] at hsuf
      obtain ⟨h1, hle, hcont, hrest⟩ := u8valid_cons_decomp _ _ hsuf
      have hrl : (((prompt_get st).getD []).drop (st.prmt_cur_col + 1)).length
          = ((prompt_get st).getD []).length - (st.prmt_cur_col + 1) := List.length_drop _ _
      rw [if_neg (by omega :
        ¬utf8_size (((prompt_get st).getD []).getD st.prmt_cur_col 0) = 0)] at hok
      rw [if_neg (by omega :
        ¬utf8_size (((prompt_get st).getD []).getD st.prmt_cur_col 0) < 0)] at hok
      rw [if_neg (by omega : ¬((prompt_get st).getD []).length - st.prmt_cur_col
        < (utf8_size (((prompt_get st).getD []).getD st.prmt_cur_col 0)).toNat)] at hok
      simp only [Except.ok.injEq] at hok
      subst hok
      have h1len : (((prompt_get st).getD []).take st.prmt_cur_col).length
          = st.prmt_cur_col := by
        rw [List.length_take]
        omega
      have hget := prompt_get_mk (prompt_materialize st).hist
          (prompt_materialize st).prmt_line st.prmt_cur_row st.prmt_cur_col
          (((prompt_get st).getD []).take st.prmt_cur_col
            ++ ((prompt_get st).getD []).drop (st.prmt_cur_col
              + (utf8_size (((prompt_get st).getD []).getD st.prmt_cur_col 0)).toNat)) hrow
      refine ⟨hrow, ?_, ?_, ?_⟩
      · rw [hget]
        simp only [Option.getD_some, List.length_append, List.length_take, List.length_drop]
        omega
      · rw [hget]
        simp only [Option.getD_some]
        rw [List.take_left' h1len]
        exact hpre
      · rw [hget]
        simp only [Option.getD_some]
        rw [List.drop_left' h1len]
        rw [show st.prmt_cur_col
              + (utf8_size (((prompt_get st).getD []).getD st.prmt_cur_col 0)).toNat
            = (st.prmt_cur_col + 1)
              + ((utf8_size (((prompt_get st).getD []).getD st.prmt_cur_col 0)).toNat - 1)
          from by omega]
        rw [← List.drop_drop]
        exact hrest

/-- The HOME loop preserves editor well-formedness. -/
theorem __prompt_output_cursor_home_go_wf (fuel : Nat) (p p' : Prompt)
    (hwf : PromptWF p)
    (hok : __prompt_output_cursor_home_go fuel p = .ok p') : PromptWF p' := by
  induction fuel generalizing p with
  | zero => simp [__prompt_output_cursor_home_go] at hok
  | succ fuel ih =>
    unfold __prompt_output_cursor_home_go at hok
    by_cases hc : p.prmt_cur_col = 0
    · rw [if_pos hc] at hok
      simp only [Except.ok.injEq] at hok
      subst hok
      exact hwf
    · rw [if_neg hc] at hok
      rcases hb : __prompt_output_cursor_backward p with e | q
      · rw [hb] at hok
        simp at hok
      · rw [hb] at hok
        simp only [] at hok
        exact ih q (__prompt_output_cursor_backward_wf p q hwf hb) hok

/-- The END loop preserves editor well-formedness. -/
theorem __prompt_output_cursor_end_go_wf (fuel sz : Nat) (p p' : Prompt)
    (hwf : PromptWF p)
    (hok : __prompt_output_cursor_end_go fuel sz p = .ok p') : PromptWF p' := by
  induction fuel generalizing p with
  | zero => simp [__prompt_output_cursor_end_go] at hok
  | succ fuel ih =>
    unfold __prompt_output_cursor_end_go at hok
    by_cases hc : sz ≤ p.prmt_cur_col
    · rw [if_pos hc] at hok
      simp only [Except.ok.injEq] at hok
      subst hok
      exact hwf
    · rw [if_neg hc] at hok
      rcases hb : __prompt_output_cursor_forward p with e | q
      · rw [hb] at hok
        simp at hok
      · rw [hb] at hok
        simp only [] at hok
        exact ih q (__prompt_output_cursor_forward_wf p q hwf hb) hok

/-- One dispatched editor event preserves editor well-formedness (the TEXT
payload being a whole code point). -/
theorem prompt_step_wf (p p' : Prompt) (e : PEvent) (hwf : PromptWF p)
    (he : PEventWF e = true) (hok : prompt_step p e = .ok p') : PromptWF p' := by
  cases e with
  | text s =>
    exact __prompt_output_line_wf p s p' hwf
      (isCp_u8valid (by simpa [PEventWF] using he)) hok
  | bckward => exact __prompt_output_cursor_backward_wf p p' hwf hok
  | forward => exact __prompt_output_cursor_forward_wf p p' hwf hok
  | backspace => exact __prompt_output_backspace_line_wf p p' hwf hok
  | del => exact __prompt_output_del_wf p p' hwf hok
  | home => exact __prompt_output_cursor_home_go_wf _ p p' hwf hok
  | end' => exact __prompt_output_cursor_end_go_wf _ _ p p' hwf hok

/-- Any successful event sequence preserves editor well-formedness. -/
theorem prompt_run_wf (evs : List PEvent) (p p' : Prompt) (hwf : PromptWF p)
    (hes : ∀ e ∈ evs, PEventWF e = true)
    (hok : prompt_run p evs = .ok p') : PromptWF p' := by
  induction evs generalizing p with
  | nil =>
    simp only [prompt_run, Except.ok.injEq] at hok
    subst hok
    exact hwf
  | cons e es ih =>
    simp only [prompt_run] at hok
    rcases hs : prompt_step p e with x | q
    · rw [hs] at hok
      simp at hok
    · rw [hs] at hok
      simp only [] at hok
      exact ih q (prompt_step_wf p q e hwf (hes e (by simp)) hs)
        (fun x hx => hes x (by simp [hx])) hok

/-! ## C7: cursor stays on code point boundaries -/

/-- Claim C7: for every sequence of TEXT/BCKWARD/FORWARD/BACKSPACE/DEL/HOME/END
events applied to an editor state whose current row string is well-formed UTF-8
with the cursor on a code point boundary (and in range), every successful run
ends with the cursor on a code point boundary of the (well-formed) current row
string: the bytes before the cursor and the bytes after it are both well-formed
code-point sequences, so `prmt_cur_col` never falls inside a multi-byte code
point.  Since the run is quantified over all event lists, every intermediate
state is itself the final state of a (prefix) run, so the invariant holds
throughout. -/
theorem claim_C7 (st : Prompt) (evs : List PEvent) (st' : Prompt)
    (hwf : PromptWF st) (hes : ∀ e ∈ evs, PEventWF e = true)
    (hok : prompt_run st evs = .ok st') :
    u8valid (((prompt_get st').getD []).take st'.prmt_cur_col) = true ∧
    u8valid (((prompt_get st').getD []).drop st'.prmt_cur_col) = true ∧
    PromptWF st' := by
  have h := prompt_run_wf evs st st' hwf hes hok
  exact ⟨h.2.2.1, h.2.2.2, h⟩

/-- Concrete instance of C7: the row "aé" (`61 C3 A9`) with the cursor at its
end; one BCKWARD lands at byte offset 1, the boundary before `é`. -/
theorem claim_C7_witness :
    u8valid (((prompt_get
        { hist := hist_empty,
          prmt_line := Function.update (fun _ => none) 0 (some [97, 195, 169]),
          prmt_cur_row := 0, prmt_cur_col := 1 }).getD []).take 1) = true ∧
    u8valid (((prompt_get
        { hist := hist_empty,
          prmt_line := Function.update (fun _ => none) 0 (some [97, 195, 169]),
          prmt_cur_row := 0, prmt_cur_col := 1 }).getD []).drop 1) = true ∧
    PromptWF
      { hist := hist_empty,
        prmt_line := Function.update (fun _ => none) 0 (some [97, 195, 169]),
        prmt_cur_row := 0, prmt_cur_col := 1 } :=
  claim_C7
    { hist := hist_empty,
      prmt_line := Function.update (fun _ => none) 0 (some [97, 195, 169]),
      prmt_cur_row := 0, prmt_cur_col := 3 }
    [.bckward]
    { hist := hist_empty,
      prmt_line := Function.update (fun _ => none) 0 (some [97, 195, 169]),
      prmt_cur_row := 0, prmt_cur_col := 1 }
    ⟨by decide, by decide, by decide, by decide⟩ (by decide) rfl

/-! ## C8: history entries are never modified -/

theorem prompt_materialize_frame (p : Prompt) (i : Nat) (hi : i ≠ p.prmt_cur_row) :
    (prompt_materialize p).prmt_line i = p.prmt_line i := by
  unfold prompt_materialize
  split
  · rfl
  · split
    · split
      · exact Function.update_noteq hi _ _
      · rfl
    · rfl

theorem prompt_materialize_copy (st : Prompt) (h : List Nat)
    (hline : st.prmt_line st.prmt_cur_row = none)
    (hr : st.prmt_cur_row ≠ 0)
    (hh : history_get st.hist (st.prmt_cur_row - 1) = some h) :
    prompt_materialize st
      = { st with
          prmt_line := Function.update st.prmt_line st.prmt_cur_row (some h) } := by
  unfold prompt_materialize
  rw [hline]
  simp only []
  rw [if_pos hr, hh]

theorem __prompt_output_line_hist (p : Prompt) (s : List Nat) (p' : Prompt)
    (hok : __prompt_output_line p s = .ok p') : p'.hist = p.hist := by
  unfold __prompt_output_line at hok
  simp only [] at hok
  split at hok
  · simp at hok
  · split at hok
    · simp at hok
    · split at hok
      · simp at hok
      · simp only [Except.ok.injEq] at hok
        subst hok
        exact prompt_materialize_hist p

theorem __prompt_output_line_frame (p : Prompt) (s : List Nat) (p' : Prompt)
    (hok : __prompt_output_line p s = .ok p') :
    ∀ i, i ≠ p.prmt_cur_row → p'.prmt_line i = p.prmt_line i := by
  unfold __prompt_output_line at hok
  simp only [] at hok
  rw [prompt_materialize_row p] at hok
  split at hok
  · simp at hok
  · split at hok
    · simp at hok
    · split at hok
      · simp at hok
      · simp only [Except.ok.injEq] at hok
        subst hok
        intro i hi
        exact (Function.update_noteq hi _ _).trans (prompt_materialize_frame p i hi)

theorem __prompt_output_backspace_line_hist (p p' : Prompt)
    (hok : __prompt_output_backspace_line p = .ok p') : p'.hist = p.hist := by
  unfold __prompt_output_backspace_line at hok
  simp only [] at hok
  split at hok
  · simp only [Except.ok.injEq] at hok
    subst hok
    rfl
  · split at hok
    · simp at hok
    · split at hok
      · simp at hok
      · split at hok
        · simp at hok
        · simp only [Except.ok.injEq] at hok
          subst hok
          exact prompt_materialize_hist p

theorem __prompt_output_backspace_line_frame (p p' : Prompt)
    (hok : __prompt_output_backspace_line p = .ok p') :
    ∀ i, i ≠ p.prmt_cur_row → p'.prmt_line i = p.prmt_line i := by
  unfold __prompt_output_backspace_line at hok
  simp only [] at hok
  rw [prompt_materialize_row p] at hok
  split at hok
  · simp only [Except.ok.injEq] at hok
    subst hok
    exact fun i hi => rfl
  · split at hok
    · simp at hok
    · split at hok
      · simp at hok
      · split at hok
        · simp at hok
        · simp only [Except.ok.injEq] at hok
          subst hok
          intro i hi
          exact (Function.update_noteq hi _ _).trans (prompt_materialize_frame p i hi)

theorem __prompt_output_del_hist (p p' : Prompt)
    (hok : __prompt_output_del p = .ok p') : p'.hist = p.hist := by
  unfold __prompt_output_del at hok
  simp only [] at hok
  split at hok
  · simp only [Except.ok.injEq] at hok
    subst hok
    rfl
  · split at hok
    · simp at hok
    · split at hok
      · simp at hok
      · split at hok
        · simp at hok
        · simp only [Except.ok.injEq] at hok
          subst hok
          exact prompt_materialize_hist p

theorem __prompt_output_del_frame (p p' : Prompt)
    (hok : __prompt_output_del p = .ok p') :
    ∀ i, i ≠ p.prmt_cur_row → p'.prmt_line i = p.prmt_line i := by
  unfold __prompt_output_del at hok
  simp only [] at hok
  rw [prompt_materialize_row p] at hok
  split at hok
  · simp only [Except.ok.injEq] at hok
    subst hok
    exact fun i hi => rfl
  · split at hok
    · simp at hok
    · split at hok
      · simp at hok
      · split at hok
        · simp at hok
        · simp only [Except.ok.injEq] at hok
          subst hok
          intro i hi
          exact (Function.update_noteq hi _ _).trans (prompt_materialize_frame p i hi)

theorem __prompt_output_cursor_backward_hist (p p' : Prompt)
    (hok : __prompt_output_cursor_backward p = .ok p') : p'.hist = p.hist := by
  unfold __prompt_output_cursor_backward at hok
  simp only [] at hok
  split at hok
  · simp only [Except.ok.injEq] at hok
    subst hok
    rfl
  · split at hok
    · simp at hok
    · split at hok
      · simp at hok
      · simp only [Except.ok.injEq] at hok
        subst hok
        rfl

theorem __prompt_output_cursor_forward_hist (p p' : Prompt)
    (hok : __prompt_output_cursor_forward p = .ok p') : p'.hist = p.hist := by
  unfold __prompt_output_cursor_forward at hok
  simp only [] at hok
  split at hok
  · simp only [Except.ok.injEq] at hok
    subst hok
    rfl
  · split at hok
    · simp at hok
    · simp only [Except.ok.injEq] at hok
      subst hok
      rfl

theorem __prompt_output_cursor_home_go_hist (fuel : Nat) (p p' : Prompt)
    (hok : __prompt_output_cursor_home_go fuel p = .ok p') : p'.hist = p.hist := by
  induction fuel generalizing p with
  | zero => simp [__prompt_output_cursor_home_go] at hok
  | succ fuel ih =>
    unfold __prompt_output_cursor_home_go at hok
    split at hok
    · simp only [Except.ok.injEq] at hok
      subst hok
      rfl
    · rcases hb : __prompt_output_cursor_backward p with e | q
      · rw [hb] at hok
        simp at hok
      · rw [hb] at hok
        simp only [] at hok
        exact (ih q hok).trans (__prompt_output_cursor_backward_hist p q hb)

theorem __prompt_output_cursor_end_go_hist (fuel sz : Nat) (p p' : Prompt)
    (hok : __prompt_output_cursor_end_go fuel sz p = .ok p') : p'.hist = p.hist := by
  induction fuel generalizing p with
  | zero => simp [__prompt_output_cursor_end_go] at hok
  | succ fuel ih =>
    unfold __prompt_output_cursor_end_go at hok
    split at hok
    · simp only [Except.ok.injEq] at hok
      subst hok
      rfl
    · rcases hb : __prompt_output_cursor_forward p with e | q
      · rw [hb] at hok
        simp at hok
      · rw [hb] at hok
        simp only [] at hok
        exact (ih q hok).trans (__prompt_output_cursor_forward_hist p q hb)

theorem prompt_step_hist (p p' : Prompt) (e : PEvent)
    (hok : prompt_step p e = .ok p') : p'.hist = p.hist := by
  cases e with
  | text s => exact __prompt_output_line_hist p s p' hok
  | bckward => exact __prompt_output_cursor_backward_hist p p' hok
  | forward => exact __prompt_output_cursor_forward_hist p p' hok
  | backspace => exact __prompt_output_backspace_line_hist p p' hok
  | del => exact __prompt_output_del_hist p p' hok
  | home => exact __prompt_output_cursor_home_go_hist _ p p' hok
  | end' => exact __prompt_output_cursor_end_go_hist _ _ p p' hok

theorem prompt_run_hist (evs : List PEvent) (p p' : Prompt)
    (hok : prompt_run p evs = .ok p') : p'.hist = p.hist := by
  induction evs generalizing p with
  | nil =>
    simp only [prompt_run, Except.ok.injEq] at hok
    subst hok
    rfl
  | cons e es ih =>
    simp only [prompt_run] at hok
    rcases hs : prompt_step p e with x | q
    · rw [hs] at hok
      simp at hok
    · rw [hs] at hok
      simp only [] at hok
      exact (ih q hok).trans (prompt_step_hist p q e hs)

/-- Claim C8: history entries are never modified by editing.  (1) Across any
successful editor event sequence the history ring is untouched.  (2) When a
mutating operation runs on a row `r > 0` whose buffer entry is absent and
history holds an entry at `r-1`, the lazy-copy step duplicates exactly that
history string into `buffer[r]` (the history field itself unchanged).
(3)-(5) Each mutating operation (insert, backspace, delete) leaves the history
ring and every buffer row other than the current one untouched: it mutates
only the current row's copy. -/
theorem claim_C8 :
    (∀ (st : Prompt) (evs : List PEvent) (st' : Prompt),
        prompt_run st evs = .ok st' → st'.hist = st.hist) ∧
    (∀ (st : Prompt) (h : List Nat),
        st.prmt_line st.prmt_cur_row = none →
        st.prmt_cur_row ≠ 0 →
        history_get st.hist (st.prmt_cur_row - 1) = some h →
        prompt_materialize st
          = { st with
              prmt_line := Function.update st.prmt_line st.prmt_cur_row (some h) }) ∧
    (∀ (st : Prompt) (s : List Nat) (st' : Prompt),
        __prompt_output_line st s = .ok st' →
        st'.hist = st.hist ∧
        ∀ i, i ≠ st.prmt_cur_row → st'.prmt_line i = st.prmt_line i) ∧
    (∀ (st st' : Prompt),
        __prompt_output_backspace_line st = .ok st' →
        st'.hist = st.hist ∧
        ∀ i, i ≠ st.prmt_cur_row → st'.prmt_line i = st.prmt_line i) ∧
    (∀ (st st' : Prompt),
        __prompt_output_del st = .ok st' →
        st'.hist = st.hist ∧
        ∀ i, i ≠ st.prmt_cur_row → st'.prmt_line i = st.prmt_line i) :=
  ⟨fun st evs st' hok => prompt_run_hist evs st st' hok,
   fun st h hline hr hh => prompt_materialize_copy st h hline hr hh,
   fun st s st' hok =>
     ⟨__prompt_output_line_hist st s st' hok, __prompt_output_line_frame st s st' hok⟩,
   fun st st' hok =>
     ⟨__prompt_output_backspace_line_hist st st' hok,
      __prompt_output_backspace_line_frame st st' hok⟩,
   fun st st' hok =>
     ⟨__prompt_output_del_hist st st' hok, __prompt_output_del_frame st st' hok⟩⟩

/-- Concrete instance of C8: row 1 over a one-entry history holding "hi";
the lazy copy duplicates "hi" into the buffer, and a DEL editing session
leaves the history ring unchanged. -/
theorem claim_C8_witness :
    prompt_materialize
      { hist := history_add [104, 105] hist_empty,
        prmt_line := fun _ => none, prmt_cur_row := 1, prmt_cur_col := 0 }
      = { hist := history_add [104, 105] hist_empty,
          prmt_line := Function.update (fun _ => none) 1 (some [104, 105]),
          prmt_cur_row := 1, prmt_cur_col := 0 } ∧
    ∃ st' : Prompt,
      prompt_run
        { hist := history_add [104, 105] hist_empty,
          prmt_line := fun _ => none, prmt_cur_row := 1, prmt_cur_col := 0 }
        [.del] = .ok st'
      ∧ st'.hist = history_add [104, 105] hist_empty := by
  constructor
  · exact claim_C8.2.1
      { hist := history_add [104, 105] hist_empty,
        prmt_line := fun _ => none, prmt_cur_row := 1, prmt_cur_col := 0 }
      [104, 105] rfl (by decide) rfl
  · exact ⟨_, rfl, claim_C8.1
      { hist := history_add [104, 105] hist_empty,
        prmt_line := fun _ => none, prmt_cur_row := 1, prmt_cur_col := 0 }
      [.del] _ rfl⟩

end Rmsh
